import Mathlib

/-!
# LinkerImplementation: a shallow embedding of `linker.cpp`

The development embeds the four routines of `linker.cpp`
(`parseObjectFile`, `resolveSymbolReferences`, `performRelocation`,
`combineSections`) as functions on byte sequences, and states the
properties of the linker design against them.

Conventions.

* A file or an in-memory buffer is a `List Byte`, `Byte = Fin 256`.
* Unsigned machine integers are natural numbers; 64-bit arithmetic is
  reduced modulo `2 ^ 64` where the source computes in `uint64_t`.
* The record layouts and the constants of `<elf.h>` (a system header) are
  those of the ELF-64 object file format on x86-64.
* An access outside a buffer, which the source leaves undefined, and a read
  that the file cannot satisfy in full, make the embedded routine return
  `none`. Files are taken to exist, so the `Failed to open` branches are not
  part of the embedding.
* In the loop of `combineSections` over the later object files the stream
  `inputFile` is embedded with its state bits (a failed `open`, a short read),
  and the memory of the local `elfHeader`, which the source does not
  initialise, is a parameter.
-/

set_option autoImplicit false

namespace Linker

/-! ## Bytes and little-endian integers -/

/-- One octet of a file or of a buffer. -/
abbrev Byte := Fin 256

/-- The `n` least significant octets of `v`, least significant first: the
memory image of an `n`-byte unsigned integer on a little-endian machine. -/
def leBytes : Nat → Nat → List Byte
  | 0, _ => []
  | n + 1, v => Fin.ofNat (v % 256) :: leBytes n (v / 256)

/-- The unsigned integer whose little-endian memory image is `bs`. -/
def leValue : List Byte → Nat
  | [] => 0
  | b :: bs => b.val + 256 * leValue bs

/-- The `n` octets of `buf` starting at position `off`, when they all lie
inside the buffer. -/
def slice (buf : List Byte) (off n : Nat) : Option (List Byte) :=
  if off + n ≤ buf.length then some ((buf.drop off).take n) else none

/-- Overwrite the octets of `buf` from position `off` on with `bs`; `none`
when the range is not inside the buffer. -/
def overwrite (buf : List Byte) (off : Nat) (bs : List Byte) : Option (List Byte) :=
  if off + bs.length ≤ buf.length then
    some (buf.take off ++ bs ++ buf.drop (off + bs.length))
  else none

/-- Read an `n`-byte little-endian unsigned integer at position `off`. -/
def readLE (n : Nat) (buf : List Byte) (off : Nat) : Option Nat :=
  (slice buf off n).map leValue

/-- The characters of the NUL-terminated string that starts at position `off`
of a string table (`std::string s = &table[off]`). The source reads up to the
terminating NUL; a table without one after `off` is cut at its end. -/
def cstr (table : List Byte) (off : Nat) : List Byte :=
  (table.drop off).takeWhile (fun b => decide (b ≠ 0))

/-! ## ELF-64 records and constants (`<elf.h>`) -/

def SHT_NULL : Nat := 0
def SHT_SYMTAB : Nat := 2
def SHT_RELA : Nat := 4
def SHT_NOBITS : Nat := 8
def STB_LOCAL : Nat := 0
def R_X86_64_NONE : Nat := 0
def R_X86_64_64 : Nat := 1
def R_X86_64_PC32 : Nat := 2

/-- Value of `sizeof(Elf64_Ehdr)`. -/
def sizeofEhdr : Nat := 64
/-- Value of `sizeof(Elf64_Shdr)`. -/
def sizeofShdr : Nat := 64
/-- Value of `sizeof(Elf64_Sym)`. -/
def sizeofSym : Nat := 24
/-- Value of `sizeof(Elf64_Rela)`. -/
def sizeofRela : Nat := 24

/-- The macro `ELF64_R_SYM(i)`: `i >> 32`. -/
def ELF64_R_SYM (info : Nat) : Nat := info / 2 ^ 32
/-- The macro `ELF64_R_TYPE(i)`: `i & 0xffffffff`. -/
def ELF64_R_TYPE (info : Nat) : Nat := info % 2 ^ 32
/-- The macro `ELF64_ST_BIND(v)`: `v >> 4`. -/
def ELF64_ST_BIND (info : Nat) : Nat := info / 16

/-- The fields of `Elf64_Ehdr` that the linker reads. -/
structure Elf64_Ehdr where
  e_type : Nat
  e_shoff : Nat
  e_shnum : Nat
  e_shstrndx : Nat
deriving DecidableEq

/-- The record `Elf64_Shdr`. -/
structure Elf64_Shdr where
  sh_name : Nat
  sh_type : Nat
  sh_flags : Nat
  sh_addr : Nat
  sh_offset : Nat
  sh_size : Nat
  sh_link : Nat
  sh_info : Nat
  sh_addralign : Nat
  sh_entsize : Nat
deriving DecidableEq

/-- The record `Elf64_Sym`. -/
structure Elf64_Sym where
  st_name : Nat
  st_info : Nat
  st_other : Nat
  st_shndx : Nat
  st_value : Nat
  st_size : Nat
deriving DecidableEq

/-- The record `Elf64_Rela`; `r_addend` is kept as its 64-bit image, which is
what `uint64_t addend = relocationEntry.r_addend` yields. -/
structure Elf64_Rela where
  r_offset : Nat
  r_info : Nat
  r_addend : Nat
deriving DecidableEq

/-- The integer stored in octets `[off, off + n)` of a record image. -/
def field (bs : List Byte) (off n : Nat) : Nat :=
  leValue ((bs.drop off).take n)

/-- Decode a 64-byte image as an `Elf64_Ehdr`. -/
def decodeEhdr (bs : List Byte) : Elf64_Ehdr :=
  { e_type := field bs 16 2
    e_shoff := field bs 40 8
    e_shnum := field bs 60 2
    e_shstrndx := field bs 62 2 }

/-- Decode a 64-byte image as an `Elf64_Shdr`. -/
def decodeShdr (bs : List Byte) : Elf64_Shdr :=
  { sh_name := field bs 0 4
    sh_type := field bs 4 4
    sh_flags := field bs 8 8
    sh_addr := field bs 16 8
    sh_offset := field bs 24 8
    sh_size := field bs 32 8
    sh_link := field bs 40 4
    sh_info := field bs 44 4
    sh_addralign := field bs 48 8
    sh_entsize := field bs 56 8 }

/-- The 64-byte image of an `Elf64_Shdr`. -/
def encodeShdr (h : Elf64_Shdr) : List Byte :=
  leBytes 4 h.sh_name ++ leBytes 4 h.sh_type ++ leBytes 8 h.sh_flags ++
  leBytes 8 h.sh_addr ++ leBytes 8 h.sh_offset ++ leBytes 8 h.sh_size ++
  leBytes 4 h.sh_link ++ leBytes 4 h.sh_info ++ leBytes 8 h.sh_addralign ++
  leBytes 8 h.sh_entsize

/-- Decode a 24-byte image as an `Elf64_Sym`. -/
def decodeSym (bs : List Byte) : Elf64_Sym :=
  { st_name := field bs 0 4
    st_info := field bs 4 1
    st_other := field bs 5 1
    st_shndx := field bs 6 2
    st_value := field bs 8 8
    st_size := field bs 16 8 }

/-- The 24-byte image of an `Elf64_Sym`. -/
def encodeSym (s : Elf64_Sym) : List Byte :=
  leBytes 4 s.st_name ++ leBytes 1 s.st_info ++ leBytes 1 s.st_other ++
  leBytes 2 s.st_shndx ++ leBytes 8 s.st_value ++ leBytes 8 s.st_size

/-- Decode a 24-byte image as an `Elf64_Rela`. -/
def decodeRela (bs : List Byte) : Elf64_Rela :=
  { r_offset := field bs 0 8
    r_info := field bs 8 8
    r_addend := field bs 16 8 }

/-- The 24-byte image of an `Elf64_Rela`. -/
def encodeRela (r : Elf64_Rela) : List Byte :=
  leBytes 8 r.r_offset ++ leBytes 8 r.r_info ++ leBytes 8 r.r_addend

/-- The result of `memcpy(&record, &buf[off], 64)` for a section header. -/
def readShdr (buf : List Byte) (off : Nat) : Option Elf64_Shdr :=
  (slice buf off sizeofShdr).map decodeShdr

/-- The result of `memcpy(&symbolEntry, &fileData[off], sizeof(Elf64_Sym))`. -/
def readSym (buf : List Byte) (off : Nat) : Option Elf64_Sym :=
  (slice buf off sizeofSym).map decodeSym

/-- The result of `memcpy(&relocationEntry, &fileData[off], sizeof(Elf64_Rela))`. -/
def readRela (buf : List Byte) (off : Nat) : Option Elf64_Rela :=
  (slice buf off sizeofRela).map decodeRela

/-- The `count` consecutive section headers stored from `off` on. -/
def readShdrs (buf : List Byte) (off : Nat) : Nat → Option (List Elf64_Shdr)
  | 0 => some []
  | count + 1 =>
    match readShdr buf off, readShdrs buf (off + sizeofShdr) count with
    | some h, some hs => some (h :: hs)
    | _, _ => none

/-- The `count` consecutive symbol entries stored from `off` on. -/
def readSyms (buf : List Byte) (off : Nat) : Nat → Option (List Elf64_Sym)
  | 0 => some []
  | count + 1 =>
    match readSym buf off, readSyms buf (off + sizeofSym) count with
    | some s, some ss => some (s :: ss)
    | _, _ => none

/-! ## The global tables -/

/-- A `std::map<std::string, uint64_t>`: keys are unique, a later assignment
to a key replaces the earlier one. -/
abbrev NameMap := List (List Byte × Nat)

/-- The call `m.find(name)`: the mapped value, or `none` for `m.end()`. -/
def NameMap.find : NameMap → List Byte → Option Nat
  | [], _ => none
  | (k, v) :: m, name => if k = name then some v else NameMap.find m name

/-- The assignment `m[name] = v`. -/
def NameMap.assign : NameMap → List Byte → Nat → NameMap
  | [], name, v => [(name, v)]
  | (k, w) :: m, name, v =>
    if k = name then (k, v) :: m else (k, w) :: NameMap.assign m name v

/-- The rvalue `m[name]`, which is 0 for a key that was not in the map. -/
def NameMap.get (m : NameMap) (name : List Byte) : Nat :=
  (m.find name).getD 0

/-! ## `uint64_t` arithmetic -/

/-- Addition in `uint64_t`. -/
def add64 (a b : Nat) : Nat := (a + b) % 2 ^ 64

/-- Subtraction in `uint64_t`. -/
def sub64 (a b : Nat) : Nat := (a % 2 ^ 64 + (2 ^ 64 - b % 2 ^ 64)) % 2 ^ 64

/-! ## `performRelocation` -/

/-- The two global variables of `linker.cpp`. -/
structure Globals where
  symbolTable : NameMap
  sectionNames : List Byte
deriving DecidableEq

/-- A line printed on `std::cerr` by `performRelocation`. -/
inductive Diagnostic where
  | symbolNotFound (symbolName : List Byte)
  | unsupportedType (type : Nat)
deriving DecidableEq

/-- What one pass over a relocation section carries from entry to entry: the
vector `fileData` and the lines printed so far. -/
structure RelocState where
  fileData : List Byte
  diagnostics : List Diagnostic
deriving DecidableEq

/-- The statements of lines 144-161: read the 64-bit word at
`fileData[relocationOffset]` and store the relocated word there. -/
def patch (st : RelocState) (type relocationOffset symbolValue addend : Nat) :
    Option RelocState :=
  match readLE 8 st.fileData relocationOffset with
  | none => none
  | some value =>
    if type = R_X86_64_NONE then some st
    else if type = R_X86_64_64 then
      (overwrite st.fileData relocationOffset
        (leBytes 8 (add64 (add64 value symbolValue) addend))).map
        fun d => { st with fileData := d }
    else if type = R_X86_64_PC32 then
      (overwrite st.fileData relocationOffset
        (leBytes 8 (sub64 (add64 (add64 value symbolValue) addend) relocationOffset))).map
        fun d => { st with fileData := d }
    else some { st with diagnostics := st.diagnostics ++ [Diagnostic.unsupportedType type] }

/-- The body of the loop over the entries of one `SHT_RELA` section (lines
116-161), for entry number `i`. -/
def applyRelocationEntry (g : Globals) (sectionHeaders : List Elf64_Shdr)
    (sectionHeader : Elf64_Shdr) (st : RelocState) (i : Nat) : Option RelocState :=
  match readRela st.fileData ((sectionHeader.sh_offset + i * sizeofRela) % 2 ^ 64) with
  | none => none
  | some relocationEntry =>
    match sectionHeaders[sectionHeader.sh_link]? with
    | none => none
    | some symtab =>
      match readSym st.fileData
          ((symtab.sh_offset + ELF64_R_SYM relocationEntry.r_info * sizeofSym) % 2 ^ 64) with
      | none => none
      | some symbolEntry =>
        if ELF64_ST_BIND symbolEntry.st_info = STB_LOCAL then some st
        else
          let symbolName := cstr g.sectionNames (symtab.sh_name + symbolEntry.st_name)
          match g.symbolTable.find symbolName with
          | none =>
            some { st with
              diagnostics := st.diagnostics ++ [Diagnostic.symbolNotFound symbolName] }
          | some symbolValue =>
            patch st (ELF64_R_TYPE relocationEntry.r_info) relocationEntry.r_offset
              symbolValue relocationEntry.r_addend

/-- The loop `for (size_t i = 0; i < numRelocations; ++i)`, over the listed
values of `i`. -/
def applyRelocationEntries (g : Globals) (sectionHeaders : List Elf64_Shdr)
    (sectionHeader : Elf64_Shdr) : List Nat → RelocState → Option RelocState
  | [], st => some st
  | i :: rest, st =>
    match applyRelocationEntry g sectionHeaders sectionHeader st i with
    | none => none
    | some st1 => applyRelocationEntries g sectionHeaders sectionHeader rest st1

/-- A file on disk together with the lines printed so far. -/
structure FileState where
  file : List Byte
  diagnostics : List Diagnostic
deriving DecidableEq

/-- The loop over the section headers (lines 101-168). `fileSize` is the value
of `file.tellg()`, the read position behind the section header table; the
vector `fileData` holds the first `fileSize` octets of the file and is written
back over them at the end of each `SHT_RELA` section. -/
def relocateSections (g : Globals) (sectionHeaders : List Elf64_Shdr) (fileSize : Nat) :
    List Elf64_Shdr → FileState → Option FileState
  | [], fs => some fs
  | sectionHeader :: rest, fs =>
    if sectionHeader.sh_type = SHT_RELA then
      let numRelocations := sectionHeader.sh_size / sizeofRela
      match slice fs.file 0 fileSize with
      | none => none
      | some fileData =>
        match applyRelocationEntries g sectionHeaders sectionHeader
            (List.range numRelocations) ⟨fileData, fs.diagnostics⟩ with
        | none => none
        | some st =>
          match overwrite fs.file 0 st.fileData with
          | none => none
          | some file1 =>
            relocateSections g sectionHeaders fileSize rest ⟨file1, st.diagnostics⟩
    else relocateSections g sectionHeaders fileSize rest fs

/-- The routine `performRelocation(fileName)` on the contents `file` of the
named file: the contents of that file when the routine returns, and the lines
it printed. -/
def performRelocation (g : Globals) (file : List Byte) : Option FileState :=
  match slice file 0 sizeofEhdr with
  | none => none
  | some image =>
    let elfHeader := decodeEhdr image
    match readShdrs file elfHeader.e_shoff elfHeader.e_shnum with
    | none => none
    | some sectionHeaders =>
      relocateSections g sectionHeaders (elfHeader.e_shoff + elfHeader.e_shnum * sizeofShdr)
        sectionHeaders ⟨file, []⟩

/-! ## `parseObjectFile` and `resolveSymbolReferences` -/

/-- The loop over the entries of one symbol table (lines 52-58): each entry
is assigned under the string found at `sh_name + st_name` of the section name
table. -/
def insertSymbols (sectionNames : List Byte) (sh_name : Nat) :
    List Elf64_Sym → NameMap → NameMap
  | [], symbolTable => symbolTable
  | symbolEntry :: rest, symbolTable =>
    insertSymbols sectionNames sh_name rest
      (symbolTable.assign (cstr sectionNames (sh_name + symbolEntry.st_name))
        symbolEntry.st_value)

/-- The vector `symbolEntries` of lines 48-50: `sh_size / sizeof(Elf64_Sym)`
entries filled by a read of `sh_size` octets, which stays inside the vector
only when `sh_size` is a multiple of the entry size. -/
def readSymbolEntries (file : List Byte) (sectionHeader : Elf64_Shdr) :
    Option (List Elf64_Sym) :=
  if sectionHeader.sh_size % sizeofSym = 0 then
    readSyms file sectionHeader.sh_offset (sectionHeader.sh_size / sizeofSym)
  else none

/-- The loop over the section headers (lines 44-60). -/
def parseSections (file sectionNames : List Byte) :
    List Elf64_Shdr → NameMap → Option NameMap
  | [], symbolTable => some symbolTable
  | sectionHeader :: rest, symbolTable =>
    if sectionHeader.sh_type = SHT_SYMTAB then
      match readSymbolEntries file sectionHeader with
      | none => none
      | some symbolEntries =>
        parseSections file sectionNames rest
          (insertSymbols sectionNames sectionHeader.sh_name symbolEntries symbolTable)
    else parseSections file sectionNames rest symbolTable

/-- The routine `parseObjectFile(fileName)` on the contents `file` of the
named file, as a transformer of the two globals. -/
def parseObjectFile (file : List Byte) (g : Globals) : Option Globals :=
  match slice file 0 sizeofEhdr with
  | none => none
  | some image =>
    let elfHeader := decodeEhdr image
    match readShdrs file elfHeader.e_shoff elfHeader.e_shnum with
    | none => none
    | some sectionHeaders =>
      match sectionHeaders[elfHeader.e_shstrndx]? with
      | none => none
      | some sectionNameTable =>
        match slice file sectionNameTable.sh_offset sectionNameTable.sh_size with
        | none => none
        | some sectionNames =>
          (parseSections file sectionNames sectionHeaders g.symbolTable).map
            fun symbolTable => ⟨symbolTable, sectionNames⟩

/-- One pass of the loop of `resolveSymbolReferences` (lines 69-77), for the
entry whose key is `symbolName`. -/
def resolveEntry (symbolTable : NameMap) (symbolName : List Byte) : NameMap :=
  match symbolTable.find symbolName with
  | some value =>
    if value = 0 then
      match symbolTable.find symbolName with
      | some found => symbolTable.assign symbolName found
      | none => symbolTable
    else symbolTable
  | none => symbolTable

/-- The routine `resolveSymbolReferences()`: one pass per entry of the table. -/
def resolveSymbolReferences (symbolTable : NameMap) : NameMap :=
  (symbolTable.map Prod.fst).foldl resolveEntry symbolTable

/-- The loop `for (objectFile : objectFiles) parseObjectFile(objectFile)` of
`main` (lines 296-299). -/
def parseObjectFiles : List (List Byte) → Globals → Option Globals
  | [], g => some g
  | file :: rest, g =>
    match parseObjectFile file g with
    | none => none
    | some g1 => parseObjectFiles rest g1

/-- The loop `for (objectFile : objectFiles) performRelocation(objectFile)`
of `main` (lines 305-306): for each input file, its contents afterwards and
the lines printed. -/
def performRelocations (g : Globals) : List (List Byte) → Option (List FileState)
  | [] => some []
  | file :: rest =>
    match performRelocation g file, performRelocations g rest with
    | some fs, some others => some (fs :: others)
    | _, _ => none

/-- Lines 295-306 of `main`, on the contents of pairwise different input
files: the input files afterwards with the lines printed for each. -/
def linkRun (objectFiles : List (List Byte)) : Option (List FileState) :=
  match parseObjectFiles objectFiles ⟨[], []⟩ with
  | none => none
  | some g =>
    performRelocations ⟨resolveSymbolReferences g.symbolTable, g.sectionNames⟩ objectFiles

/-! ## `combineSections` -/

/-- The output file after `seekp(off)` and `write(bs)`: a gap between the
old end of the file and `off` reads as zero octets; writing nothing leaves
the file as it is. -/
def writeAt (out : List Byte) (off : Nat) (bs : List Byte) : List Byte :=
  match bs with
  | [] => out
  | _ :: _ =>
    (out ++ List.replicate (off - out.length) 0).take off ++ bs ++ out.drop (off + bs.length)

/-- What lines 181-212 read from the first object file. -/
structure FirstModule where
  image : List Byte
  firstElfHeader : Elf64_Ehdr
  sectionNameTable : Elf64_Shdr
  sectionNames : List Byte
  table : List Byte
  sectionHeaders : List Elf64_Shdr
deriving DecidableEq

/-- The reads of lines 181-212 on the contents `first` of `objectFiles[0]`:
the ELF header, the header of the section name table, the section name table
and the section header table (as octets and decoded). -/
def readFirstModule (first : List Byte) : Option FirstModule :=
  match slice first 0 sizeofEhdr with
  | none => none
  | some image =>
    let firstElfHeader := decodeEhdr image
    match readShdr first
        (firstElfHeader.e_shoff + firstElfHeader.e_shstrndx * sizeofShdr) with
    | none => none
    | some sectionNameTable =>
      match slice first sectionNameTable.sh_offset sectionNameTable.sh_size,
          slice first firstElfHeader.e_shoff (firstElfHeader.e_shnum * sizeofShdr),
          readShdrs first firstElfHeader.e_shoff firstElfHeader.e_shnum with
      | some sectionNames, some table, some sectionHeaders =>
        some ⟨image, firstElfHeader, sectionNameTable, sectionNames, table, sectionHeaders⟩
      | _, _, _ => none

/-- The writes of lines 188-216: the ELF header at 0, the section name table
at its `sh_offset`, the section header table at `e_shoff`. -/
def writeFirstModule (m : FirstModule) : List Byte :=
  writeAt (writeAt (writeAt [] 0 m.image) m.sectionNameTable.sh_offset m.sectionNames)
    m.firstElfHeader.e_shoff m.table

/-- The loop of lines 219-225: the offset of every section of the first
module that is neither `SHT_NULL` nor `SHT_NOBITS`, under its name. -/
def recordSectionOffsets (sectionNames : List Byte) :
    List Elf64_Shdr → NameMap → NameMap
  | [], sectionOffsets => sectionOffsets
  | sectionHeader :: rest, sectionOffsets =>
    if sectionHeader.sh_type ≠ SHT_NULL ∧ sectionHeader.sh_type ≠ SHT_NOBITS then
      recordSectionOffsets sectionNames rest
        (sectionOffsets.assign (cstr sectionNames sectionHeader.sh_name)
          sectionHeader.sh_offset)
    else recordSectionOffsets sectionNames rest sectionOffsets

/-- A `std::ifstream`: the contents of the file it is open on (`none` when it
is closed), the read position, and the state bits `failbit` and `eofbit`. -/
structure InputStream where
  file : Option (List Byte)
  pos : Nat
  failbit : Bool
  eofbit : Bool
deriving DecidableEq

/-- The call `stream.open(name)`, where `contents` is what the named file
holds (`none` when there is no such file). On a stream that is still open the
call fails and sets `failbit`; a call that succeeds clears the state bits. -/
def InputStream.openOn (s : InputStream) (contents : Option (List Byte)) : InputStream :=
  match s.file, contents with
  | none, some c => ⟨some c, 0, false, false⟩
  | _, _ => ⟨s.file, s.pos, true, s.eofbit⟩

/-- The call `stream.seekg(p)`: `eofbit` is cleared first; the position is set
unless `failbit` is set. -/
def InputStream.seekg (s : InputStream) (p : Nat) : InputStream :=
  if s.failbit then ⟨s.file, s.pos, true, false⟩
  else
    match s.file with
    | some c => ⟨some c, p, false, false⟩
    | none => ⟨none, s.pos, true, false⟩

/-- The call `stream.read(dest, n)`: the characters stored at `dest` and the
stream afterwards. Nothing is stored when a state bit is set; fewer than `n`
characters are stored when the file ends, and then `failbit` and `eofbit` are
set. -/
def InputStream.read (s : InputStream) (n : Nat) : List Byte × InputStream :=
  if s.failbit ∨ s.eofbit then ([], ⟨s.file, s.pos, true, s.eofbit⟩)
  else
    match s.file with
    | none => ([], ⟨none, s.pos, true, true⟩)
    | some c =>
      if s.pos + n ≤ c.length then ((c.drop s.pos).take n, ⟨some c, s.pos + n, false, false⟩)
      else (c.drop s.pos, ⟨some c, c.length, true, true⟩)

/-- The call `stream.close()`; it sets `failbit` on a stream that is not open. -/
def InputStream.close (s : InputStream) : InputStream :=
  match s.file with
  | some _ => ⟨none, s.pos, s.failbit, s.eofbit⟩
  | none => ⟨none, s.pos, true, s.eofbit⟩

/-- The memory `dest` after the characters `got` have been stored at its
start. -/
def overlay (got dest : List Byte) : List Byte :=
  got ++ dest.drop got.length

/-- A value-initialised `Elf64_Shdr`. -/
def zeroShdr : Elf64_Shdr := ⟨0, 0, 0, 0, 0, 0, 0, 0, 0, 0⟩

/-- The call `sectionHeaders.resize(n)`: the first `n` elements are kept, new
elements are value-initialised. -/
def resize (sectionHeaders : List Elf64_Shdr) (n : Nat) : List Elf64_Shdr :=
  (sectionHeaders ++ List.replicate (n - sectionHeaders.length) zeroShdr).take n

/-- The vector `sectionHeaders` after `read` has stored the characters `table`
over its elements: an element that no character reaches stays as it was. -/
def readInto (table : List Byte) : List Elf64_Shdr → List Elf64_Shdr
  | [] => []
  | h :: rest =>
    match table with
    | [] => h :: rest
    | _ :: _ =>
      decodeShdr (overlay (table.take sizeofShdr) (encodeShdr h)) ::
        readInto (table.drop sizeofShdr) rest

/-- The state of `combineSections` inside the loop over the object files:
the output file, the map `sectionOffsets`, the stream `inputFile`, the vector
`sectionHeaders`, and two records of the section loop: every header it has
gone through, as it stood at line 248 (`processed`) and as it stood after
line 258 (`assigned`). -/
structure CombineState where
  outputFile : List Byte
  sectionOffsets : NameMap
  inputFile : InputStream
  sectionHeaders : List Elf64_Shdr
  processed : List Elf64_Shdr
  assigned : List Elf64_Shdr
deriving DecidableEq

/-- The header after `sectionHeaders[sectionIndex].sh_offset = newSectionOffset`. -/
def withOffset (sectionHeader : Elf64_Shdr) (newSectionOffset : Nat) : Elf64_Shdr :=
  { sectionHeader with sh_offset := newSectionOffset }

/-- The loop over the elements of the vector `sectionHeaders` (lines 246-273),
given the elements still to go through; the elements gone through are
collected in the field `sectionHeaders`. The name of a section is looked up
in `sectionNames`, the section name table of the first module. The header is
a reference into the vector, so the seeks after line 258 use the new offset.
The vector `sectionData` starts as `sh_size` zero octets. -/
def combineSectionLoop (sectionNames : List Byte) :
    List Elf64_Shdr → CombineState → CombineState
  | [], st => st
  | sectionHeader :: rest, st =>
    if sectionHeader.sh_type ≠ SHT_NULL ∧ sectionHeader.sh_type ≠ SHT_NOBITS then
      let name := cstr sectionNames sectionHeader.sh_name
      let previousSectionSize := st.sectionOffsets.get name
      let newSectionOffset := add64 (st.sectionOffsets.get name) previousSectionSize
      let updated := withOffset sectionHeader newSectionOffset
      let out1 := writeAt st.outputFile newSectionOffset (encodeShdr updated)
      let r := (st.inputFile.seekg newSectionOffset).read sectionHeader.sh_size
      let sectionData := overlay r.1 (List.replicate sectionHeader.sh_size 0)
      let out2 := writeAt out1 newSectionOffset sectionData
      combineSectionLoop sectionNames rest
        ⟨out2, st.sectionOffsets.assign name newSectionOffset, r.2,
          st.sectionHeaders ++ [updated], st.processed ++ [sectionHeader],
          st.assigned ++ [updated]⟩
    else
      combineSectionLoop sectionNames rest
        ⟨st.outputFile, st.sectionOffsets, st.inputFile,
          st.sectionHeaders ++ [sectionHeader], st.processed ++ [sectionHeader],
          st.assigned ++ [sectionHeader]⟩

/-- The vector `sectionHeaders` as it stands after line 243, and the stream:
`elfHeader` is what the read of line 238 leaves of the indeterminate object
`indeterminate`; the vector is resized to its `e_shnum` and read into. -/
def readLaterHeaders (indeterminate : List Byte) (contents : Option (List Byte))
    (st : CombineState) : List Elf64_Shdr × InputStream :=
  let r1 := (st.inputFile.openOn contents).read sizeofEhdr
  let elfHeader := decodeEhdr (overlay r1.1 indeterminate)
  let r2 := (r1.2.seekg elfHeader.e_shoff).read (elfHeader.e_shnum * sizeofShdr)
  (readInto r2.1 (resize st.sectionHeaders elfHeader.e_shnum), r2.2)

/-- One pass of the loop over the object files for a file other than the
first (lines 235-275). `indeterminate` is the 64-octet memory of the local
object `elfHeader` before line 238, `contents` what the file holds. -/
def combinePass (sectionNames indeterminate : List Byte) (contents : Option (List Byte))
    (st : CombineState) : CombineState :=
  let loaded := readLaterHeaders indeterminate contents st
  let st1 := combineSectionLoop sectionNames loaded.1
    ⟨st.outputFile, st.sectionOffsets, loaded.2, [], st.processed, st.assigned⟩
  ⟨st1.outputFile, st1.sectionOffsets, st1.inputFile.close, st1.sectionHeaders,
    st1.processed, st1.assigned⟩

/-- The loop over the object files (lines 228-276), from the `i`-th file on: a
file whose name equals `objectFiles[0]` is skipped. `files` gives the contents
of a named file, `indeterminate i` the memory of `elfHeader` in pass `i`. -/
def combineObjectFiles (firstName : String) (sectionNames : List Byte)
    (files : String → Option (List Byte)) (indeterminate : Nat → List Byte) :
    List String → Nat → CombineState → CombineState
  | [], _, st => st
  | objectFile :: rest, i, st =>
    if objectFile = firstName then
      combineObjectFiles firstName sectionNames files indeterminate rest (i + 1) st
    else
      combineObjectFiles firstName sectionNames files indeterminate rest (i + 1)
        (combinePass sectionNames (indeterminate i) (files objectFile) st)

/-- The state when the loop over the object files starts: the writes of lines
188-216 are done, the offsets of the first module are recorded, and the
stream `inputFile`, opened on the first file at line 209 and not closed since,
stands behind its section header table; the vector holds that table. -/
def combineStart (first : List Byte) (m : FirstModule) : CombineState :=
  ⟨writeFirstModule m, recordSectionOffsets m.sectionNames m.sectionHeaders [],
    ⟨some first, m.firstElfHeader.e_shoff + m.firstElfHeader.e_shnum * sizeofShdr,
      false, false⟩,
    m.sectionHeaders, [], []⟩

/-- The routine `combineSections(objectFiles, outputFileName)`. `files` gives
the contents of a named input file, `indeterminate i` the memory of the local
object `elfHeader` in pass `i` of the loop over the object files. The result
holds the output file. -/
def combineSections (objectFiles : List String) (files : String → Option (List Byte))
    (indeterminate : Nat → List Byte) : Option CombineState :=
  match objectFiles with
  | [] => none
  | firstName :: _ =>
    match files firstName with
    | none => none
    | some first =>
      match readFirstModule first with
      | none => none
      | some m =>
        some (combineObjectFiles firstName m.sectionNames files indeterminate
          objectFiles 0 (combineStart first m))

/-- Whether the section loop handles `h` (neither `SHT_NULL` nor `SHT_NOBITS`)
under the name `name`. -/
def handledAs (sectionNames name : List Byte) (h : Elf64_Shdr) : Bool :=
  decide (h.sh_type ≠ SHT_NULL ∧ h.sh_type ≠ SHT_NOBITS ∧
    cstr sectionNames h.sh_name = name)

/-- The map `sectionOffsets` and the record `assigned` under the section
loop, without the stream and the file writes. -/
def assignOffsets (sectionNames : List Byte) :
    List Elf64_Shdr → NameMap × List Elf64_Shdr → NameMap × List Elf64_Shdr
  | [], acc => acc
  | sectionHeader :: rest, acc =>
    if sectionHeader.sh_type ≠ SHT_NULL ∧ sectionHeader.sh_type ≠ SHT_NOBITS then
      let name := cstr sectionNames sectionHeader.sh_name
      let newSectionOffset := add64 (acc.1.get name) (acc.1.get name)
      assignOffsets sectionNames rest
        (acc.1.assign name newSectionOffset,
          acc.2 ++ [withOffset sectionHeader newSectionOffset])
    else assignOffsets sectionNames rest (acc.1, acc.2 ++ [sectionHeader])

/-- The section header table of an object file with contents `file`, decoded
(empty when it cannot be read in full). -/
def sectionHeadersOf (file : List Byte) : List Elf64_Shdr :=
  let elfHeader := decodeEhdr (file.take sizeofEhdr)
  (readShdrs file elfHeader.e_shoff elfHeader.e_shnum).getD []

/-! ## Concrete object files -/

/-- Image of an `Elf64_Ehdr` of a relocatable x86-64 object with the given
section header table position, section count and section name table index. -/
def ehdrImage (e_shoff e_shnum e_shstrndx : Nat) : List Byte :=
  [0x7f, 0x45, 0x4c, 0x46, 2, 1, 1, 0, 0, 0, 0, 0, 0, 0, 0, 0] ++
  leBytes 2 1 ++ leBytes 2 62 ++ leBytes 4 1 ++ leBytes 8 0 ++ leBytes 8 0 ++
  leBytes 8 e_shoff ++ leBytes 4 0 ++ leBytes 2 64 ++ leBytes 2 0 ++ leBytes 2 0 ++
  leBytes 2 64 ++ leBytes 2 e_shnum ++ leBytes 2 e_shstrndx

/-- The characters `.text`, NUL-terminated. -/
def dotText : List Byte := [46, 116, 101, 120, 116, 0]
/-- The characters `.strtab`, NUL-terminated. -/
def dotStrtab : List Byte := [46, 115, 116, 114, 116, 97, 98, 0]
/-- The characters `.rela.text`, NUL-terminated. -/
def dotRelaText : List Byte := [46, 114, 101, 108, 97, 46, 116, 101, 120, 116, 0]
/-- The characters `foo`. -/
def nameFoo : List Byte := [102, 111, 111]
/-- The characters `bar`. -/
def nameBar : List Byte := [98, 97, 114]
/-- The characters `add`. -/
def nameAdd : List Byte := [97, 100, 100]

/-- The string table of `refObject sym _ _ _ _`. -/
def refNames (sym : List Byte) : List Byte :=
  [0] ++ dotText ++ dotStrtab ++ dotRelaText ++ sym ++ [0]

/-- The string table of `defObject sym _`. -/
def defNames (sym : List Byte) : List Byte :=
  [0] ++ dotText ++ dotStrtab ++ sym ++ [0]

/-- Section header table of `defObject sym _`. -/
def defHeaders (sym : List Byte) : List Elf64_Shdr :=
  [ ⟨0, 0, 0, 0, 0, 0, 0, 0, 0, 0⟩,
    ⟨1, 1, 6, 0, 0x40, 16, 0, 0, 16, 0⟩,
    ⟨0, 2, 0, 0, 0x50, 48, 3, 1, 8, 24⟩,
    ⟨7, 3, 0, 0, 0x80, 16 + sym.length, 0, 0, 1, 0⟩ ]

/-- A relocatable object of 408 octets that defines the global function
`sym` (at most eight characters) at `st_value = value` of its `.text`:
ELF header; `.text` (16 octets) at `0x40`; the symbol table (two entries) at
`0x50`; the string table `\0.text\0.strtab\0sym\0`, which also names the
sections, at `0x80`; four section headers at `0x98`. The symbol table section
is unnamed (`sh_name = 0`). -/
def defObject (sym : List Byte) (value : Nat) : List Byte :=
  ehdrImage 0x98 4 3 ++
  [0xc3, 0x90, 0x90, 0x90, 0x90, 0x90, 0x90, 0x90,
   0x90, 0x90, 0x90, 0x90, 0x90, 0x90, 0x90, 0x90] ++
  encodeSym ⟨0, 0, 0, 0, 0, 0⟩ ++ encodeSym ⟨15, 0x12, 0, 1, value, 1⟩ ++
  defNames sym ++ List.replicate (8 - sym.length) 0 ++
  ((defHeaders sym).map encodeShdr).flatten

/-- Section header table of `refObject sym _ _ _ _`. -/
def refHeaders (sym : List Byte) : List Elf64_Shdr :=
  [ ⟨0, 0, 0, 0, 0, 0, 0, 0, 0, 0⟩,
    ⟨1, 1, 6, 0, 0x40, 16, 0, 0, 16, 0⟩,
    ⟨0, 2, 0, 0, 0x50, 48, 4, 1, 8, 24⟩,
    ⟨15, 4, 0x40, 0, 0x80, 24, 2, 1, 8, 24⟩,
    ⟨7, 3, 0, 0, 0x98, 27 + sym.length, 0, 0, 1, 0⟩ ]

/-- A relocatable object of 504 octets whose `.text` is `text` (16 octets)
and that refers to the undefined global symbol `sym` (at most five characters,
`st_shndx = 0`, `st_value = 0`) through one relocation entry for `.text` with
the given type, `r_offset` and addend:
ELF header; `.text` at `0x40`; the symbol table (two entries) at `0x50`;
`.rela.text` (one entry) at `0x80`; the string table
`\0.text\0.strtab\0.rela.text\0sym\0`, which also names the sections, at
`0x98`; five section headers at `0xb8`. The symbol table section is unnamed
(`sh_name = 0`). -/
def refObject (sym text : List Byte) (type r_offset addend : Nat) : List Byte :=
  ehdrImage 0xb8 5 4 ++ text ++
  encodeSym ⟨0, 0, 0, 0, 0, 0⟩ ++ encodeSym ⟨26, 0x10, 0, 0, 0, 0⟩ ++
  encodeRela ⟨r_offset, 2 ^ 32 + type, addend⟩ ++
  refNames sym ++ List.replicate (5 - sym.length) 0 ++
  ((refHeaders sym).map encodeShdr).flatten

/-- Code `movabs $imm64, %rax; jmp *%rax` with the immediate at offset 2. -/
def textAbs : List Byte :=
  [0x48, 0xb8, 0, 0, 0, 0, 0, 0, 0, 0, 0xff, 0xe0, 0x90, 0x90, 0x90, 0x90]

/-- Code `push %rbp; mov %rsp, %rbp; mov $1, %edi; call rel32; pop %rbp; ret`
with the displacement of the call at offset 10. -/
def textCall : List Byte :=
  [0x55, 0x48, 0x89, 0xe5, 0xbf, 1, 0, 0, 0, 0xe8, 0, 0, 0, 0, 0x5d, 0xc3]

/-- The module `bar.o`: refers to the undefined `bar` through an
`R_X86_64_64` entry at `r_offset = 2` with addend 5. -/
def barObject : List Byte := refObject nameBar textAbs R_X86_64_64 2 5

/-- The module `add.o`: defines `add` at offset 0 of its `.text`. -/
def addObject : List Byte := defObject nameAdd 0

/-- The module `main.o`: calls `add` through an `R_X86_64_PC32` entry at
`r_offset = 10` with addend -4. -/
def mainObject : List Byte := refObject nameAdd textCall R_X86_64_PC32 10 (2 ^ 64 - 4)

/-- The string table of the relocation example,
`\0add\0.text\0.rela.text\0.strtab\0`. -/
def exampleNames : List Byte :=
  [0] ++ nameAdd ++ [0] ++ dotText ++ dotRelaText ++ dotStrtab

/-- The symbol table header of the relocation example: unnamed, at `0x40`. -/
def exampleSymtabHeader : Elf64_Shdr := ⟨0, 2, 0, 0, 0x40, 48, 4, 1, 8, 24⟩

/-- The relocation section header of the example: `.rela.text` at `0x70`,
one entry, symbol table 2, target section 1. -/
def exampleRelaHeader : Elf64_Shdr := ⟨11, 4, 0x40, 0, 0x70, 24, 2, 1, 8, 24⟩

/-- Section header table of the relocation example: a null header, `.text`
at file position `P - 8`, the symbol table, the relocation section for
`.text`, and the string table at `0x88`. -/
def exampleHeaders (P : Nat) : List Elf64_Shdr :=
  [ ⟨0, 0, 0, 0, 0, 0, 0, 0, 0, 0⟩,
    ⟨5, 1, 6, 0, P - 8, 0x20, 0, 0, 8, 0⟩,
    exampleSymtabHeader,
    exampleRelaHeader,
    ⟨22, 3, 0, 0, 0x88, 30, 0, 0, 1, 0⟩ ]

/-- Buffer of the relocation example, `P + 0x18` octets for `P` from `0xa8`
on: the null symbol and the global symbol `add` at `0x40`, one relocation
entry of type `type` with `r_offset = P` and addend 4 at `0x70`, the string
table at `0x88`, and the eight octets `old` at `P`. -/
def exampleData (type P : Nat) (old : List Byte) : List Byte :=
  List.replicate 0x40 0 ++ encodeSym ⟨0, 0, 0, 0, 0, 0⟩ ++
  encodeSym ⟨1, 0x12, 0, 1, 0, 0⟩ ++ encodeRela ⟨P, 2 ^ 32 + type, 4⟩ ++
  exampleNames ++ List.replicate (P - 0xa6) 0 ++ old ++ List.replicate 0x10 0

/-- Globals of the relocation example: `add` has the value `0x1000`, and the
section name table is the string table of the example. -/
def exampleGlobals : Globals := ⟨[(nameAdd, 0x1000)], exampleNames⟩

/-- The `n`-byte word found at `off` once a relocation entry has been applied. -/
def wordAfter (n : Nat) (r : Option RelocState) (off : Nat) : Option Nat :=
  r.bind fun st => readLE n st.fileData off

/-- The `n` octets found at `off` once a relocation entry has been applied. -/
def bytesAfter (r : Option RelocState) (off n : Nat) : Option (List Byte) :=
  r.bind fun st => slice st.fileData off n

/-- The globals once `bar.o` alone has been parsed: the null symbol and `bar`,
both with value 0. -/
def barGlobals : Globals := ⟨[([], 0), (nameBar, 0)], refNames nameBar⟩

/-- The module `bar.o` with octet 2 replaced by `0x51`. -/
def barPatched : List Byte := barObject.take 2 ++ [0x51] ++ barObject.drop 3

/-- The `n` octets found at `off` in the file once `performRelocation` has
returned. -/
def fileBytesAfter (r : Option FileState) (off n : Nat) : Option (List Byte) :=
  r.bind fun fs => slice fs.file off n

/-- The value that the symbol table holds under `name` once parsing has
returned. -/
def tableValue (r : Option Globals) (name : List Byte) : Option Nat :=
  r.bind fun g => g.symbolTable.find name

/-- For each input file of a run, the lines printed while relocating it and
the `n` octets found at `off` in it afterwards. -/
def runOutcome (r : Option (List FileState)) (off n : Nat) :
    Option (List (List Diagnostic × Option (List Byte))) :=
  r.map fun files => files.map fun fs => (fs.diagnostics, slice fs.file off n)

/-- A table transformer that only assigns: what it leaves under a name is
what it assigns from the empty table, or else what was there. -/
def Assigning (F : NameMap → NameMap) : Prop :=
  ∀ (t : NameMap) (name : List Byte), (F t).find name = ((F []).find name).or (t.find name)

/-- The `sh_offset` with which the `k`-th section header that `combineSections`
went through stands after line 258. -/
def assignedOffset (r : Option CombineState) (k : Nat) : Option Nat :=
  r.bind fun st => st.assigned[k]?.map fun h => h.sh_offset

/-- The `n` octets found at `off` in the output file of `combineSections`. -/
def outputBytes (r : Option CombineState) (off n : Nat) : Option (List Byte) :=
  r.bind fun st => slice st.outputFile off n

/-- The input files `add.o` and `main.o`, the latter with the given contents. -/
def pairFiles (contents : List Byte) (name : String) : Option (List Byte) :=
  if name = "add.o" then some addObject
  else if name = "main.o" then some contents
  else none

/-- The section headers of `add.o` after one pass of the section loop over
them, starting from the offsets that `add.o` itself recorded. -/
def addStaleAssigned : List Elf64_Shdr :=
  [ ⟨0, 0, 0, 0, 0, 0, 0, 0, 0, 0⟩,
    ⟨1, 1, 6, 0, 0x80, 16, 0, 0, 16, 0⟩,
    ⟨0, 2, 0, 0, 0xa0, 48, 3, 1, 8, 24⟩,
    ⟨7, 3, 0, 0, 0x100, 19, 0, 0, 1, 0⟩ ]

/-- What `combineSections` reads from `add.o` as its first object file. -/
def addFirstModule : FirstModule :=
  ⟨addObject.take 64, ⟨1, 0x98, 4, 3⟩, ⟨7, 3, 0, 0, 0x80, 19, 0, 0, 1, 0⟩,
    defNames nameAdd, (addObject.drop 0x98).take 256, defHeaders nameAdd⟩

end Linker

namespace Linker

/-! ## Buffers and little-endian words -/

theorem leBytes_length (n v : Nat) : (leBytes n v).length = n := by
  induction n generalizing v with
  | zero => rfl
  | succ n ih => simp [leBytes, ih]

theorem leValue_leBytes (n v : Nat) : leValue (leBytes n v) = v % 256 ^ n := by
  induction n generalizing v with
  | zero => simp [leBytes, leValue, Nat.mod_one]
  | succ n ih =>
    simp only [leBytes, leValue, ih, Fin.ofNat, Nat.mod_mod]
    rw [pow_succ, Nat.mul_comm (256 ^ n) 256, Nat.mod_mul]

theorem overwrite_length {buf bs out : List Byte} {off : Nat}
    (h : overwrite buf off bs = some out) : out.length = buf.length := by
  unfold overwrite at h
  split at h
  · cases h
    simp
    omega
  · cases h

theorem slice_overwrite {buf bs out : List Byte} {off : Nat}
    (h : overwrite buf off bs = some out) (k : Nat) (hk : k ≤ bs.length) :
    slice out off k = some (bs.take k) := by
  have hl := overwrite_length h
  unfold overwrite at h
  split at h
  next hb =>
    cases h
    unfold slice
    rw [if_pos (by rw [hl]; omega)]
    congr 1
    have h1 : (List.take off buf).length = off := by simp; omega
    rw [List.append_assoc, List.drop_append_of_le_length (by omega)]
    rw [List.drop_of_length_le (by omega), List.nil_append]
    rw [List.take_append_of_le_length hk]
  next => cases h

theorem leValue_take (bs : List Byte) (n : Nat) :
    leValue (bs.take n) = leValue bs % 256 ^ n := by
  induction bs generalizing n with
  | nil => simp [leValue]
  | cons b bs ih =>
    cases n with
    | zero => simp [leValue, Nat.mod_one]
    | succ n =>
      have hb := b.isLt
      simp only [List.take_succ_cons, leValue, ih]
      rw [pow_succ, Nat.mul_comm (256 ^ n) 256, Nat.mod_mul]
      rw [Nat.add_mul_mod_self_left, Nat.mod_eq_of_lt hb]
      rw [Nat.add_mul_div_left _ _ (by decide : 0 < 256), Nat.div_eq_of_lt hb, Nat.zero_add]

theorem slice_take {buf bs : List Byte} {off n : Nat} (h : slice buf off n = some bs)
    (k : Nat) (hk : k ≤ n) : slice buf off k = some (bs.take k) := by
  unfold slice at h ⊢
  split at h
  next hb =>
    cases h
    rw [if_pos (by omega)]
    congr 1
    rw [List.take_take, Nat.min_eq_left hk]
  next => cases h

theorem readLE_low {buf : List Byte} {off v : Nat} (h : readLE 8 buf off = some v) :
    readLE 4 buf off = some (v % 2 ^ 32) := by
  unfold readLE at h ⊢
  cases hs : slice buf off 8 with
  | none => rw [hs] at h; cases h
  | some bs =>
    rw [hs] at h
    simp only [Option.map_some', Option.some.injEq] at h
    rw [slice_take hs 4 (by decide)]
    simp only [Option.map_some', Option.some.injEq]
    rw [leValue_take, ← h]
    norm_num

theorem readLE_isSome {buf : List Byte} {off n : Nat} (h : off + n ≤ buf.length) :
    ∃ v, readLE n buf off = some v := by
  unfold readLE slice
  rw [if_pos h]
  exact ⟨_, rfl⟩

theorem overwrite_isSome (buf : List Byte) (off : Nat) (bs : List Byte)
    (h : off + bs.length ≤ buf.length) :
    overwrite buf off bs = some (buf.take off ++ bs ++ buf.drop (off + bs.length)) := by
  unfold overwrite
  rw [if_pos h]

theorem readLE_overwrite {buf out : List Byte} {off v : Nat}
    (h : overwrite buf off (leBytes 8 v) = some out) :
    readLE 8 out off = some (v % 2 ^ 64) ∧ readLE 4 out off = some (v % 2 ^ 32) := by
  have h8 : readLE 8 out off = some (v % 2 ^ 64) := by
    unfold readLE
    have := slice_overwrite h 8 (by rw [leBytes_length])
    rw [this]
    simp only [Option.map_some', Option.some.injEq]
    rw [leValue_take, leValue_leBytes]
    norm_num
  refine ⟨h8, ?_⟩
  rw [readLE_low h8]
  congr 1
  omega

theorem applyRelocationEntry_eq_patch {g : Globals} {sectionHeaders : List Elf64_Shdr}
    {sectionHeader symtab : Elf64_Shdr} {st : RelocState} {i : Nat}
    {relocationEntry : Elf64_Rela} {symbolEntry : Elf64_Sym} {symbolValue : Nat}
    (hrela : readRela st.fileData ((sectionHeader.sh_offset + i * sizeofRela) % 2 ^ 64)
      = some relocationEntry)
    (hlink : sectionHeaders[sectionHeader.sh_link]? = some symtab)
    (hsym : readSym st.fileData
      ((symtab.sh_offset + ELF64_R_SYM relocationEntry.r_info * sizeofSym) % 2 ^ 64)
      = some symbolEntry)
    (hbind : ELF64_ST_BIND symbolEntry.st_info ≠ STB_LOCAL)
    (hfound : g.symbolTable.find
      (cstr g.sectionNames (symtab.sh_name + symbolEntry.st_name)) = some symbolValue) :
    applyRelocationEntry g sectionHeaders sectionHeader st i =
      patch st (ELF64_R_TYPE relocationEntry.r_info) relocationEntry.r_offset
        symbolValue relocationEntry.r_addend := by
  unfold applyRelocationEntry
  simp only [hrela, hlink, hsym, if_neg hbind, hfound]

theorem patch_abs64 (st : RelocState) (P S A : Nat) (hb : P + 8 ≤ st.fileData.length) :
    ∃ value, readLE 8 st.fileData P = some value ∧
      patch st R_X86_64_64 P S A = some ⟨st.fileData.take P ++
        leBytes 8 (add64 (add64 value S) A) ++ st.fileData.drop (P + 8), st.diagnostics⟩ := by
  obtain ⟨value, hv⟩ := readLE_isSome hb
  refine ⟨value, hv, ?_⟩
  unfold patch
  rw [hv]
  have ho := overwrite_isSome st.fileData P (leBytes 8 (add64 (add64 value S) A))
    (by rw [leBytes_length]; exact hb)
  rw [leBytes_length] at ho
  simp [R_X86_64_64, R_X86_64_NONE, R_X86_64_PC32, ho]

theorem patch_pc32 (st : RelocState) (P S A : Nat) (hb : P + 8 ≤ st.fileData.length) :
    ∃ value, readLE 8 st.fileData P = some value ∧
      patch st R_X86_64_PC32 P S A = some ⟨st.fileData.take P ++
        leBytes 8 (sub64 (add64 (add64 value S) A) P) ++ st.fileData.drop (P + 8),
        st.diagnostics⟩ := by
  obtain ⟨value, hv⟩ := readLE_isSome hb
  refine ⟨value, hv, ?_⟩
  unfold patch
  rw [hv]
  have ho := overwrite_isSome st.fileData P (leBytes 8 (sub64 (add64 (add64 value S) A) P))
    (by rw [leBytes_length]; exact hb)
  rw [leBytes_length] at ho
  simp [R_X86_64_64, R_X86_64_NONE, R_X86_64_PC32, ho]


/-! ## One relocation entry -/

theorem leValue_lt (bs : List Byte) : leValue bs < 256 ^ bs.length := by
  induction bs with
  | nil => simp [leValue]
  | cons b bs ih =>
    have hb := b.isLt
    simp only [leValue, List.length_cons, pow_succ]
    omega

theorem field_lt (bs : List Byte) (off n : Nat) : field bs off n < 256 ^ n := by
  unfold field
  refine lt_of_lt_of_le (leValue_lt _) (Nat.pow_le_pow_right (by decide) ?_)
  rw [List.length_take]
  exact Nat.min_le_left _ _

theorem readRela_offset_lt {buf : List Byte} {off : Nat} {r : Elf64_Rela}
    (h : readRela buf off = some r) : r.r_offset < 2 ^ 64 := by
  unfold readRela at h
  cases hs : slice buf off sizeofRela with
  | none => rw [hs] at h; cases h
  | some bs =>
    rw [hs] at h
    simp only [Option.map_some', Option.some.injEq] at h
    rw [← h]
    have := field_lt bs 0 8
    simpa [decodeRela] using this

/-- C1 (as amended). One `R_X86_64_PC32` entry against a non-local symbol that
is found in the symbol table with value `S`, at `P = r_offset` with `P + 8`
inside the buffer: the entry is applied, and the 4 octets at `P` then hold the
32-bit two's-complement image of `V + S + A - P`, where `V` is the 32-bit word
those octets held before and `A` is the signed addend. With `V = 0`,
`S = 0x1000`, `A = 4`, `P = 0x1008` the word is `0xFFFFFFFC`. -/
theorem pc32_word_adds_previous_content (g : Globals) (sectionHeaders : List Elf64_Shdr)
    (sectionHeader symtab : Elf64_Shdr) (st : RelocState) (i : Nat)
    (relocationEntry : Elf64_Rela) (symbolEntry : Elf64_Sym) (S : Nat)
    (hrela : readRela st.fileData ((sectionHeader.sh_offset + i * sizeofRela) % 2 ^ 64)
      = some relocationEntry)
    (hlink : sectionHeaders[sectionHeader.sh_link]? = some symtab)
    (hsym : readSym st.fileData
      ((symtab.sh_offset + ELF64_R_SYM relocationEntry.r_info * sizeofSym) % 2 ^ 64)
      = some symbolEntry)
    (hbind : ELF64_ST_BIND symbolEntry.st_info ≠ STB_LOCAL)
    (hfound : g.symbolTable.find
      (cstr g.sectionNames (symtab.sh_name + symbolEntry.st_name)) = some S)
    (htype : ELF64_R_TYPE relocationEntry.r_info = R_X86_64_PC32)
    (hbound : relocationEntry.r_offset + 8 ≤ st.fileData.length) :
    ∃ V W : Nat,
      readLE 4 st.fileData relocationEntry.r_offset = some V ∧
      wordAfter 4 (applyRelocationEntry g sectionHeaders sectionHeader st i)
        relocationEntry.r_offset = some W ∧
      (∀ A : Int, A % 2 ^ 64 = relocationEntry.r_addend →
        (W : Int) = ((V : Int) + S + A - relocationEntry.r_offset) % 2 ^ 32) ∧
      (V = 0 → S = 0x1000 → relocationEntry.r_addend = 4 →
        relocationEntry.r_offset = 0x1008 → W = 0xFFFFFFFC) := by
  have hP := readRela_offset_lt hrela
  rw [applyRelocationEntry_eq_patch hrela hlink hsym hbind hfound, htype]
  obtain ⟨value, hv, hp⟩ := patch_pc32 st relocationEntry.r_offset S
    relocationEntry.r_addend hbound
  rw [hp]
  have ho := overwrite_isSome st.fileData relocationEntry.r_offset
    (leBytes 8 (sub64 (add64 (add64 value S) relocationEntry.r_addend)
      relocationEntry.r_offset)) (by rw [leBytes_length]; exact hbound)
  rw [leBytes_length] at ho
  have hw := (readLE_overwrite ho).2
  refine ⟨value % 2 ^ 32, _, readLE_low hv, hw, ?_, ?_⟩
  · intro A hA
    simp only [sub64, add64]
    omega
  · intro hV hS hA hoff
    simp only [sub64, add64, hS, hA, hoff]
    omega

/-- Witness for `pc32_word_adds_previous_content`: the entry of the example
(`S = 0x1000`, `A = 4`, `P = 0x1008`) over eight zero octets. -/
theorem pc32_word_adds_previous_content_witness :
    ∃ V W : Nat,
      readLE 4 (exampleData R_X86_64_PC32 0x1008 [0, 0, 0, 0, 0, 0, 0, 0]) 0x1008 = some V ∧
      wordAfter 4 (applyRelocationEntry exampleGlobals (exampleHeaders 0x1008) exampleRelaHeader
        ⟨exampleData R_X86_64_PC32 0x1008 [0, 0, 0, 0, 0, 0, 0, 0], []⟩ 0) 0x1008 = some W ∧
      (∀ A : Int, A % 2 ^ 64 = 4 → (W : Int) = ((V : Int) + 0x1000 + A - 0x1008) % 2 ^ 32) ∧
      (V = 0 → 0x1000 = 0x1000 → 4 = 4 → 0x1008 = 0x1008 → W = 0xFFFFFFFC) :=
  pc32_word_adds_previous_content exampleGlobals (exampleHeaders 0x1008) exampleRelaHeader
    exampleSymtabHeader
    ⟨exampleData R_X86_64_PC32 0x1008 [0, 0, 0, 0, 0, 0, 0, 0], []⟩ 0
    ⟨0x1008, 2 ^ 32 + 2, 4⟩ ⟨1, 0x12, 0, 1, 0, 0⟩ 0x1000
    (by decide!) (by decide) (by decide!) (by decide) (by decide) (by decide) (by decide!)

/-- C1 (counterexample). In the example (`S = 0x1000`, `A = 4`, `P = 0x1008`)
the 32-bit word left at `P` is `0xFFFFFFFC` when the eight octets at `P` were
zero, and `0xFFFFFFFD` when the first of them was 1: the patched word is not
`S + A - P` whatever the octets held before. -/
theorem pc32_word_depends_on_previous_content :
    wordAfter 4 (applyRelocationEntry exampleGlobals (exampleHeaders 0x1008) exampleRelaHeader
        ⟨exampleData R_X86_64_PC32 0x1008 [0, 0, 0, 0, 0, 0, 0, 0], []⟩ 0) 0x1008
      = some 0xFFFFFFFC ∧
    wordAfter 4 (applyRelocationEntry exampleGlobals (exampleHeaders 0x1008) exampleRelaHeader
        ⟨exampleData R_X86_64_PC32 0x1008 [1, 0, 0, 0, 0, 0, 0, 0], []⟩ 0) 0x1008
      = some 0xFFFFFFFD ∧
    ((0x1000 + 4 - 0x1008 : Int) % 2 ^ 32 = 0xFFFFFFFC) := by
  refine ⟨by decide!, by decide!, by decide⟩

/-- C4 (as amended). One `R_X86_64_64` entry against a non-local symbol that
is found in the symbol table with value `S`, at `P = r_offset` with `P + 8`
inside the buffer: the entry is applied, and the 8 octets at `P` then hold
`(V + S + A) mod 2^64` in little-endian, where `V` is the 64-bit word those
octets held before; they hold `(S + A) mod 2^64` when that word was zero. -/
theorem abs64_word_adds_previous_content (g : Globals) (sectionHeaders : List Elf64_Shdr)
    (sectionHeader symtab : Elf64_Shdr) (st : RelocState) (i : Nat)
    (relocationEntry : Elf64_Rela) (symbolEntry : Elf64_Sym) (S : Nat)
    (hrela : readRela st.fileData ((sectionHeader.sh_offset + i * sizeofRela) % 2 ^ 64)
      = some relocationEntry)
    (hlink : sectionHeaders[sectionHeader.sh_link]? = some symtab)
    (hsym : readSym st.fileData
      ((symtab.sh_offset + ELF64_R_SYM relocationEntry.r_info * sizeofSym) % 2 ^ 64)
      = some symbolEntry)
    (hbind : ELF64_ST_BIND symbolEntry.st_info ≠ STB_LOCAL)
    (hfound : g.symbolTable.find
      (cstr g.sectionNames (symtab.sh_name + symbolEntry.st_name)) = some S)
    (htype : ELF64_R_TYPE relocationEntry.r_info = R_X86_64_64)
    (hbound : relocationEntry.r_offset + 8 ≤ st.fileData.length) :
    ∃ V : Nat,
      readLE 8 st.fileData relocationEntry.r_offset = some V ∧
      wordAfter 8 (applyRelocationEntry g sectionHeaders sectionHeader st i)
        relocationEntry.r_offset = some ((V + S + relocationEntry.r_addend) % 2 ^ 64) ∧
      (V = 0 →
        wordAfter 8 (applyRelocationEntry g sectionHeaders sectionHeader st i)
          relocationEntry.r_offset = some ((S + relocationEntry.r_addend) % 2 ^ 64)) := by
  rw [applyRelocationEntry_eq_patch hrela hlink hsym hbind hfound, htype]
  obtain ⟨value, hv, hp⟩ := patch_abs64 st relocationEntry.r_offset S
    relocationEntry.r_addend hbound
  rw [hp]
  have ho := overwrite_isSome st.fileData relocationEntry.r_offset
    (leBytes 8 (add64 (add64 value S) relocationEntry.r_addend))
    (by rw [leBytes_length]; exact hbound)
  rw [leBytes_length] at ho
  have hw := (readLE_overwrite ho).1
  have hmod : add64 (add64 value S) relocationEntry.r_addend % 2 ^ 64
      = (value + S + relocationEntry.r_addend) % 2 ^ 64 := by
    simp only [add64]
    omega
  rw [hmod] at hw
  refine ⟨value, hv, hw, ?_⟩
  intro hV
  have h0 : (value + S + relocationEntry.r_addend) % 2 ^ 64
      = (S + relocationEntry.r_addend) % 2 ^ 64 := by rw [hV, Nat.zero_add]
  rw [← h0]
  exact hw

/-- Witness for `abs64_word_adds_previous_content`: the entry of the example
with type `R_X86_64_64` at `0xa8` over the octets `1, 0, 0, 0, 0, 0, 0, 0`. -/
theorem abs64_word_adds_previous_content_witness :
    ∃ V : Nat,
      readLE 8 (exampleData R_X86_64_64 0xa8 [1, 0, 0, 0, 0, 0, 0, 0]) 0xa8 = some V ∧
      wordAfter 8 (applyRelocationEntry exampleGlobals (exampleHeaders 0xa8) exampleRelaHeader
        ⟨exampleData R_X86_64_64 0xa8 [1, 0, 0, 0, 0, 0, 0, 0], []⟩ 0) 0xa8
        = some ((V + 0x1000 + 4) % 2 ^ 64) ∧
      (V = 0 →
        wordAfter 8 (applyRelocationEntry exampleGlobals (exampleHeaders 0xa8) exampleRelaHeader
          ⟨exampleData R_X86_64_64 0xa8 [1, 0, 0, 0, 0, 0, 0, 0], []⟩ 0) 0xa8
          = some ((0x1000 + 4) % 2 ^ 64)) :=
  abs64_word_adds_previous_content exampleGlobals (exampleHeaders 0xa8) exampleRelaHeader
    exampleSymtabHeader
    ⟨exampleData R_X86_64_64 0xa8 [1, 0, 0, 0, 0, 0, 0, 0], []⟩ 0
    ⟨0xa8, 2 ^ 32 + 1, 4⟩ ⟨1, 0x12, 0, 1, 0, 0⟩ 0x1000
    (by decide!) (by decide) (by decide!) (by decide) (by decide) (by decide) (by decide!)

/-- C4 (counterexample). In the example with type `R_X86_64_64` (`S = 0x1000`,
`A = 4`, patch location `0xa8`) the 8 octets at the patch location hold
`0x1005`, not `S + A = 0x1004`, when they held the word 1 before. -/
theorem abs64_word_depends_on_previous_content :
    bytesAfter (applyRelocationEntry exampleGlobals (exampleHeaders 0xa8) exampleRelaHeader
        ⟨exampleData R_X86_64_64 0xa8 [1, 0, 0, 0, 0, 0, 0, 0], []⟩ 0) 0xa8 8
      = some [0x05, 0x10, 0, 0, 0, 0, 0, 0] ∧
    leBytes 8 ((0x1000 + 4) % 2 ^ 64) = [0x04, 0x10, 0, 0, 0, 0, 0, 0] := by
  refine ⟨by decide!, by decide⟩

/-- C3 (the code at the failing input). In the example (`S = 0x1000`, `A = 4`,
`P = 0x1008`) with the octets `0, 0, 0, 0, 0x48, 0x89, 0xc7, 0xc3` at `P`, the
`R_X86_64_PC32` entry leaves `0xfc, 0xff, 0xff, 0xff` at `P` and changes the four
octets that follow, at `P + 4`, to `0x47, 0x89, 0xc7, 0xc3`. -/
theorem pc32_patch_overwrites_following_octets :
    slice (exampleData R_X86_64_PC32 0x1008 [0, 0, 0, 0, 0x48, 0x89, 0xc7, 0xc3]) 0x100c 4
      = some [0x48, 0x89, 0xc7, 0xc3] ∧
    bytesAfter (applyRelocationEntry exampleGlobals (exampleHeaders 0x1008) exampleRelaHeader
        ⟨exampleData R_X86_64_PC32 0x1008 [0, 0, 0, 0, 0x48, 0x89, 0xc7, 0xc3], []⟩ 0) 0x1008 4
      = some [0xfc, 0xff, 0xff, 0xff] ∧
    bytesAfter (applyRelocationEntry exampleGlobals (exampleHeaders 0x1008) exampleRelaHeader
        ⟨exampleData R_X86_64_PC32 0x1008 [0, 0, 0, 0, 0x48, 0x89, 0xc7, 0xc3], []⟩ 0) 0x100c 4
      = some [0x47, 0x89, 0xc7, 0xc3] := by
  refine ⟨by decide!, by decide!, by decide!⟩

theorem leBytes_take (n m v : Nat) : (leBytes (n + m) v).take n = leBytes n v := by
  induction n generalizing v with
  | zero => simp [leBytes]
  | succ n ih =>
    rw [Nat.add_right_comm]
    simp [leBytes, ih]

/-- C2 (as amended). One `R_X86_64_64` or `R_X86_64_PC32` entry against a
non-local symbol found in the symbol table with value `S`, with the 8 octets
from `r_offset` on inside the buffer and `V` the 64-bit word they hold: the
entry is applied and the relocated value is stored from position `r_offset`
of the buffer on, `r_offset` being taken alone as a position in the file. The
octets before `r_offset` and the octets from `r_offset + 8` on are as before;
for `R_X86_64_64` the 8 octets at `r_offset` hold `(V + S + A) mod 2^64`, for
`R_X86_64_PC32` the 4 octets at `r_offset` hold the low 32 bits of
`(V + S + A) - r_offset`. Of the section header table only the entry
`sh_link` (the symbol table) is used, so the position of the target section
does not enter. -/
theorem patched_octets_start_at_r_offset (g : Globals) (sectionHeaders : List Elf64_Shdr)
    (sectionHeader symtab : Elf64_Shdr) (st : RelocState) (i : Nat)
    (relocationEntry : Elf64_Rela) (symbolEntry : Elf64_Sym) (S : Nat)
    (hrela : readRela st.fileData ((sectionHeader.sh_offset + i * sizeofRela) % 2 ^ 64)
      = some relocationEntry)
    (hlink : sectionHeaders[sectionHeader.sh_link]? = some symtab)
    (hsym : readSym st.fileData
      ((symtab.sh_offset + ELF64_R_SYM relocationEntry.r_info * sizeofSym) % 2 ^ 64)
      = some symbolEntry)
    (hbind : ELF64_ST_BIND symbolEntry.st_info ≠ STB_LOCAL)
    (hfound : g.symbolTable.find
      (cstr g.sectionNames (symtab.sh_name + symbolEntry.st_name)) = some S)
    (htype : ELF64_R_TYPE relocationEntry.r_info = R_X86_64_64 ∨
      ELF64_R_TYPE relocationEntry.r_info = R_X86_64_PC32)
    (hbound : relocationEntry.r_offset + 8 ≤ st.fileData.length) :
    ∃ (V : Nat) (st1 : RelocState),
      readLE 8 st.fileData relocationEntry.r_offset = some V ∧
      applyRelocationEntry g sectionHeaders sectionHeader st i = some st1 ∧
      st1.fileData.take relocationEntry.r_offset
        = st.fileData.take relocationEntry.r_offset ∧
      st1.fileData.drop (relocationEntry.r_offset + 8)
        = st.fileData.drop (relocationEntry.r_offset + 8) ∧
      (ELF64_R_TYPE relocationEntry.r_info = R_X86_64_64 →
        slice st1.fileData relocationEntry.r_offset 8
          = some (leBytes 8 ((V + S + relocationEntry.r_addend) % 2 ^ 64))) ∧
      (ELF64_R_TYPE relocationEntry.r_info = R_X86_64_PC32 →
        slice st1.fileData relocationEntry.r_offset 4
          = some (leBytes 4 (sub64 ((V + S + relocationEntry.r_addend) % 2 ^ 64)
              relocationEntry.r_offset))) ∧
      (∀ otherHeaders : List Elf64_Shdr,
        otherHeaders[sectionHeader.sh_link]? = some symtab →
        applyRelocationEntry g otherHeaders sectionHeader st i = some st1) := by
  have hmod : ∀ V : Nat, add64 (add64 V S) relocationEntry.r_addend
      = (V + S + relocationEntry.r_addend) % 2 ^ 64 := by
    intro V
    simp only [add64]
    omega
  have key : ∀ (V w : Nat), readLE 8 st.fileData relocationEntry.r_offset = some V →
      patch st (ELF64_R_TYPE relocationEntry.r_info) relocationEntry.r_offset S
        relocationEntry.r_addend
        = some ⟨st.fileData.take relocationEntry.r_offset ++ leBytes 8 w ++
            st.fileData.drop (relocationEntry.r_offset + 8), st.diagnostics⟩ →
      ∃ st1 : RelocState,
        applyRelocationEntry g sectionHeaders sectionHeader st i = some st1 ∧
        st1.fileData.take relocationEntry.r_offset
          = st.fileData.take relocationEntry.r_offset ∧
        st1.fileData.drop (relocationEntry.r_offset + 8)
          = st.fileData.drop (relocationEntry.r_offset + 8) ∧
        slice st1.fileData relocationEntry.r_offset 8 = some (leBytes 8 w) ∧
        slice st1.fileData relocationEntry.r_offset 4 = some (leBytes 4 w) ∧
        (∀ otherHeaders : List Elf64_Shdr,
          otherHeaders[sectionHeader.sh_link]? = some symtab →
          applyRelocationEntry g otherHeaders sectionHeader st i = some st1) := by
    intro V w _ hp
    have ho := overwrite_isSome st.fileData relocationEntry.r_offset (leBytes 8 w)
      (by rw [leBytes_length]; exact hbound)
    rw [leBytes_length] at ho
    have hlen : (List.take relocationEntry.r_offset st.fileData).length
        = relocationEntry.r_offset := by
      rw [List.length_take]
      omega
    refine ⟨⟨st.fileData.take relocationEntry.r_offset ++ leBytes 8 w ++
      st.fileData.drop (relocationEntry.r_offset + 8), st.diagnostics⟩, ?_, ?_, ?_, ?_, ?_, ?_⟩
    · rw [applyRelocationEntry_eq_patch hrela hlink hsym hbind hfound, hp]
    · show List.take relocationEntry.r_offset (_ ++ _ ++ _) = _
      rw [List.append_assoc, List.take_append_of_le_length (by omega),
        List.take_take, Nat.min_self]
    · show List.drop (relocationEntry.r_offset + 8) (_ ++ _ ++ _) = _
      rw [List.drop_append_eq_append_drop, List.drop_of_length_le
        (by rw [List.length_append, hlen, leBytes_length])]
      simp [hlen, leBytes_length]
    · have h8 := slice_overwrite ho 8 (by rw [leBytes_length])
      rw [h8, List.take_of_length_le (by rw [leBytes_length])]
    · have h4 := slice_overwrite ho 4 (by rw [leBytes_length]; decide)
      rw [h4]
      exact congrArg some (leBytes_take 4 4 w)
    · intro otherHeaders hother
      rw [applyRelocationEntry_eq_patch hrela hother hsym hbind hfound, hp]
  rcases htype with htype | htype
  · obtain ⟨V, hv, hp⟩ := patch_abs64 st relocationEntry.r_offset S
      relocationEntry.r_addend hbound
    rw [hmod V, ← htype] at hp
    obtain ⟨st1, h1, h2, h3, h4, _, h6⟩ := key V _ hv hp
    refine ⟨V, st1, hv, h1, h2, h3, fun _ => h4, ?_, h6⟩
    intro hpc
    rw [htype] at hpc
    exact absurd hpc (by decide)
  · obtain ⟨V, hv, hp⟩ := patch_pc32 st relocationEntry.r_offset S
      relocationEntry.r_addend hbound
    rw [hmod V, ← htype] at hp
    obtain ⟨st1, h1, h2, h3, _, h5, h6⟩ := key V _ hv hp
    refine ⟨V, st1, hv, h1, h2, h3, ?_, fun _ => h5, h6⟩
    intro habs
    rw [htype] at habs
    exact absurd habs (by decide)

/-! ## The symbol table -/

theorem find_assign (t : NameMap) (k name : List Byte) (v : Nat) :
    (t.assign k v).find name = if k = name then some v else t.find name := by
  induction t with
  | nil => simp [NameMap.assign, NameMap.find]
  | cons e t ih =>
    obtain ⟨k1, w⟩ := e
    by_cases h1 : k1 = k
    · subst h1
      by_cases h2 : k1 = name <;> simp [NameMap.assign, NameMap.find, h2]
    · by_cases h2 : k1 = name
      · subst h2
        have h3 : ¬ k = k1 := fun h => h1 h.symm
        simp [NameMap.assign, NameMap.find, h1, h3]
      · simp [NameMap.assign, NameMap.find, h1, h2, ih]

theorem assigning_id : Assigning id := by
  intro t name
  simp [NameMap.find]

theorem assigning_assign (k : List Byte) (v : Nat) :
    Assigning (fun t => t.assign k v) := by
  intro t name
  simp only [find_assign]
  by_cases h : k = name <;> simp [h, NameMap.find]

theorem assigning_comp {F G : NameMap → NameMap} (hF : Assigning F) (hG : Assigning G) :
    Assigning (fun t => G (F t)) := by
  intro t name
  show (G (F t)).find name = ((G (F [])).find name).or (t.find name)
  rw [hG (F t), hG (F []), hF t]
  cases (G []).find name <;> cases (F []).find name <;> simp

theorem assigning_insertSymbols (sectionNames : List Byte) (sh_name : Nat)
    (syms : List Elf64_Sym) : Assigning (insertSymbols sectionNames sh_name syms) := by
  induction syms with
  | nil => exact assigning_id
  | cons s rest ih =>
    show Assigning (fun t => insertSymbols sectionNames sh_name rest
      (t.assign (cstr sectionNames (sh_name + s.st_name)) s.st_value))
    exact assigning_comp (assigning_assign _ _) ih

theorem parseSections_assigning (file sectionNames : List Byte) (hs : List Elf64_Shdr) :
    (∃ F, Assigning F ∧ ∀ t, parseSections file sectionNames hs t = some (F t)) ∨
    (∀ t, parseSections file sectionNames hs t = none) := by
  induction hs with
  | nil => exact Or.inl ⟨id, assigning_id, fun t => rfl⟩
  | cons sh rest ih =>
    by_cases hty : sh.sh_type = SHT_SYMTAB
    · cases hr : readSymbolEntries file sh with
      | none =>
        right
        intro t
        simp [parseSections, hty, hr]
      | some syms =>
        rcases ih with ⟨F, hF, hFt⟩ | hnone
        · left
          refine ⟨fun t => F (insertSymbols sectionNames sh.sh_name syms t),
            assigning_comp (assigning_insertSymbols _ _ _) hF, ?_⟩
          intro t
          simp [parseSections, hty, hr, hFt]
        · right
          intro t
          simp [parseSections, hty, hr, hnone]
    · rcases ih with ⟨F, hF, hFt⟩ | hnone
      · left
        refine ⟨F, hF, ?_⟩
        intro t
        simp [parseSections, hty, hFt]
      · right
        intro t
        simp [parseSections, hty, hnone]

/-- C5 (as amended). Parsing a module never fails because of what the table
holds, reports nothing, and leaves under every name that the module defines
the value that this module gives it: whatever an earlier module stored under
the name is replaced. -/
theorem later_definition_replaces_earlier (file : List Byte) (g alone : Globals)
    (name : List Byte) (v : Nat)
    (halone : parseObjectFile file ⟨[], []⟩ = some alone)
    (hdef : alone.symbolTable.find name = some v) :
    ∃ g1, parseObjectFile file g = some g1 ∧ g1.symbolTable.find name = some v := by
  unfold parseObjectFile at halone ⊢
  cases h1 : slice file 0 sizeofEhdr with
  | none => rw [h1] at halone; cases halone
  | some image =>
    rw [h1] at halone
    simp only at halone ⊢
    cases h2 : readShdrs file (decodeEhdr image).e_shoff (decodeEhdr image).e_shnum with
    | none => rw [h2] at halone; cases halone
    | some sectionHeaders =>
      rw [h2] at halone
      simp only at halone ⊢
      cases h3 : sectionHeaders[(decodeEhdr image).e_shstrndx]? with
      | none => rw [h3] at halone; cases halone
      | some sectionNameTable =>
        rw [h3] at halone
        simp only at halone ⊢
        cases h4 : slice file sectionNameTable.sh_offset sectionNameTable.sh_size with
        | none => rw [h4] at halone; cases halone
        | some sectionNames =>
          rw [h4] at halone
          simp only at halone ⊢
          rcases parseSections_assigning file sectionNames sectionHeaders with
            ⟨F, hF, hFt⟩ | hnone
          · rw [hFt] at halone ⊢
            simp only [Option.map_some', Option.some.injEq] at halone
            refine ⟨_, rfl, ?_⟩
            show (F g.symbolTable).find name = some v
            rw [hF g.symbolTable name]
            rw [← halone] at hdef
            simp only at hdef
            rw [hdef]
            rfl
          · rw [hnone] at halone
            cases halone


/-- Witness for `later_definition_replaces_earlier`: the table holds `foo = 4`
from a first module, and the module that defines `foo = 8` is parsed. -/
theorem later_definition_replaces_earlier_witness :
    ∃ g1, parseObjectFile (defObject nameFoo 8)
        ⟨[([], 0), (nameFoo, 4)], defNames nameFoo⟩ = some g1 ∧
      g1.symbolTable.find nameFoo = some 8 :=
  later_definition_replaces_earlier (defObject nameFoo 8)
    ⟨[([], 0), (nameFoo, 4)], defNames nameFoo⟩
    ⟨[([], 0), (nameFoo, 8)], defNames nameFoo⟩ nameFoo 8 (by decide!) (by decide)

/-- C5 (counterexample). Two modules each define the global function `foo`
(binding `STB_GLOBAL`, section index 1), with values 4 and 8. After the first
is parsed the table holds 4 under `foo`; after both it holds 8, the value of
the second module. -/
theorem second_strong_definition_is_kept :
    readSym (defObject nameFoo 4) 0x68 = some ⟨15, 0x12, 0, 1, 4, 1⟩ ∧
    readSym (defObject nameFoo 8) 0x68 = some ⟨15, 0x12, 0, 1, 8, 1⟩ ∧
    tableValue (parseObjectFiles [defObject nameFoo 4] ⟨[], []⟩) nameFoo = some 4 ∧
    tableValue (parseObjectFiles [defObject nameFoo 4, defObject nameFoo 8] ⟨[], []⟩)
      nameFoo = some 8 := by
  refine ⟨by decide!, by decide!, by decide!, by decide!⟩

/-! ## The whole of `performRelocation` -/

/-- Witness for `patched_octets_start_at_r_offset`: the one relocation entry of
`bar.o` (`R_X86_64_64`, `r_offset = 2`, addend 5, symbol `bar` with value 0). -/
theorem patched_octets_start_at_r_offset_witness :
    ∃ (V : Nat) (st1 : RelocState),
      readLE 8 barObject 2 = some V ∧
      applyRelocationEntry barGlobals (refHeaders nameBar)
        ⟨15, 4, 0x40, 0, 0x80, 24, 2, 1, 8, 24⟩ ⟨barObject, []⟩ 0 = some st1 ∧
      st1.fileData.take 2 = barObject.take 2 ∧
      st1.fileData.drop (2 + 8) = barObject.drop (2 + 8) ∧
      (ELF64_R_TYPE (2 ^ 32 + 1) = R_X86_64_64 →
        slice st1.fileData 2 8 = some (leBytes 8 ((V + 0 + 5) % 2 ^ 64))) ∧
      (ELF64_R_TYPE (2 ^ 32 + 1) = R_X86_64_PC32 →
        slice st1.fileData 2 4 = some (leBytes 4 (sub64 ((V + 0 + 5) % 2 ^ 64) 2))) ∧
      (∀ otherHeaders : List Elf64_Shdr,
        otherHeaders[2]? = some ⟨0, 2, 0, 0, 0x50, 48, 4, 1, 8, 24⟩ →
        applyRelocationEntry barGlobals otherHeaders
          ⟨15, 4, 0x40, 0, 0x80, 24, 2, 1, 8, 24⟩ ⟨barObject, []⟩ 0 = some st1) :=
  patched_octets_start_at_r_offset barGlobals (refHeaders nameBar)
    ⟨15, 4, 0x40, 0, 0x80, 24, 2, 1, 8, 24⟩ ⟨0, 2, 0, 0, 0x50, 48, 4, 1, 8, 24⟩
    ⟨barObject, []⟩ 0 ⟨2, 2 ^ 32 + 1, 5⟩ ⟨26, 0x10, 0, 0, 0, 0⟩ 0
    (by decide!) (by decide) (by decide!) (by decide) (by decide) (Or.inl (by decide))
    (by decide!)

/-- C2 (counterexample). In `bar.o` the relocation section (header 3) has the
target section 1, `.text`, which lies at position `0x40` of the file, and its
entry has `r_offset = 2`. `performRelocation` leaves the eight octets at
`0x40 + 2` as they were and replaces the eight octets at position 2, inside
the ELF header. -/
theorem patch_position_ignores_target_section :
    sectionHeadersOf barObject = refHeaders nameBar ∧
    readRela barObject 0x80 = some ⟨2, 2 ^ 32 + 1, 5⟩ ∧
    fileBytesAfter (performRelocation barGlobals barObject) 0x42 8
      = slice barObject 0x42 8 ∧
    slice barObject 2 8 = some [0x4c, 0x46, 2, 1, 1, 0, 0, 0] ∧
    fileBytesAfter (performRelocation barGlobals barObject) 2 8
      = some [0x51, 0x46, 2, 1, 1, 0, 0, 0] := by
  refine ⟨by decide!, by decide!, by decide!, by decide!, by decide!⟩

/-- C6 (the code at the failing input). `bar.o` refers to the undefined global
`bar` (`st_shndx = 0`, value 0) and no module defines it. Parsing enters `bar`
in the table with value 0, `resolveSymbolReferences` leaves the table as it
is, and the run prints nothing while it replaces the octets at the patch
position 2 by the old word plus `0 + 5`. -/
theorem undefined_symbol_is_patched_silently :
    readSym barObject 0x68 = some ⟨26, 0x10, 0, 0, 0, 0⟩ ∧
    parseObjectFiles [barObject] ⟨[], []⟩ = some barGlobals ∧
    resolveSymbolReferences barGlobals.symbolTable = barGlobals.symbolTable ∧
    slice barObject 2 8 = some [0x4c, 0x46, 2, 1, 1, 0, 0, 0] ∧
    runOutcome (linkRun [barObject]) 2 8
      = some [([], some [0x51, 0x46, 2, 1, 1, 0, 0, 0])] := by
  refine ⟨by decide!, by decide!, by decide!, by decide!, by decide!⟩

/-- C9 (counterexample). `performRelocation` on `bar.o` returns with the
contents of `bar.o` itself changed. -/
theorem performRelocation_changes_input_file :
    fileBytesAfter (performRelocation barGlobals barObject) 0 504 = some barPatched ∧
    barPatched ≠ barObject := by
  refine ⟨by decide!, by decide!⟩


theorem patch_length {st st1 : RelocState} {type P S A : Nat}
    (h : patch st type P S A = some st1) : st1.fileData.length = st.fileData.length := by
  unfold patch at h
  cases hv : readLE 8 st.fileData P with
  | none => rw [hv] at h; cases h
  | some value =>
    rw [hv] at h
    simp only at h
    split at h
    · cases h; rfl
    · split at h
      · cases ho : overwrite st.fileData P (leBytes 8 (add64 (add64 value S) A)) with
        | none => rw [ho] at h; cases h
        | some d =>
          rw [ho] at h
          cases h
          exact overwrite_length ho
      · split at h
        · cases ho : overwrite st.fileData P
              (leBytes 8 (sub64 (add64 (add64 value S) A) P)) with
          | none => rw [ho] at h; cases h
          | some d =>
            rw [ho] at h
            cases h
            exact overwrite_length ho
        · cases h; rfl

theorem applyRelocationEntry_length {g : Globals} {sectionHeaders : List Elf64_Shdr}
    {sectionHeader : Elf64_Shdr} {st st1 : RelocState} {i : Nat}
    (h : applyRelocationEntry g sectionHeaders sectionHeader st i = some st1) :
    st1.fileData.length = st.fileData.length := by
  unfold applyRelocationEntry at h
  split at h
  · cases h
  · split at h
    · cases h
    · split at h
      · cases h
      · split at h
        · cases h; rfl
        · simp only at h
          split at h
          · cases h; rfl
          · exact patch_length h

theorem applyRelocationEntries_length {g : Globals} {sectionHeaders : List Elf64_Shdr}
    {sectionHeader : Elf64_Shdr} (is : List Nat) {st st1 : RelocState}
    (h : applyRelocationEntries g sectionHeaders sectionHeader is st = some st1) :
    st1.fileData.length = st.fileData.length := by
  induction is generalizing st with
  | nil =>
    simp only [applyRelocationEntries, Option.some.injEq] at h
    rw [h]
  | cons i rest ih =>
    unfold applyRelocationEntries at h
    cases hs : applyRelocationEntry g sectionHeaders sectionHeader st i with
    | none => rw [hs] at h; cases h
    | some st2 =>
      rw [hs] at h
      rw [ih h, applyRelocationEntry_length hs]

theorem slice_length {buf bs : List Byte} {off n : Nat} (h : slice buf off n = some bs) :
    bs.length = n := by
  unfold slice at h
  split at h
  · cases h
    simp
    omega
  · cases h

theorem relocateSections_length {g : Globals} {sectionHeaders : List Elf64_Shdr}
    {fileSize : Nat} (l : List Elf64_Shdr) {fs fs1 : FileState}
    (h : relocateSections g sectionHeaders fileSize l fs = some fs1) :
    fs1.file.length = fs.file.length := by
  induction l generalizing fs with
  | nil =>
    simp only [relocateSections, Option.some.injEq] at h
    rw [h]
  | cons sh rest ih =>
    unfold relocateSections at h
    split at h
    · simp only at h
      cases h1 : slice fs.file 0 fileSize with
      | none => rw [h1] at h; cases h
      | some fileData =>
        rw [h1] at h
        simp only at h
        cases h2 : applyRelocationEntries g sectionHeaders sh
            (List.range (sh.sh_size / sizeofRela)) ⟨fileData, fs.diagnostics⟩ with
        | none => rw [h2] at h; cases h
        | some st =>
          rw [h2] at h
          simp only at h
          cases h3 : overwrite fs.file 0 st.fileData with
          | none => rw [h3] at h; cases h
          | some file1 =>
            rw [h3] at h
            simp only at h
            rw [ih h]
            exact overwrite_length h3
    · exact ih h

theorem relocateSections_no_rela (g : Globals) (sectionHeaders : List Elf64_Shdr)
    (fileSize : Nat) (l : List Elf64_Shdr) (fs : FileState)
    (hno : ∀ sh ∈ l, sh.sh_type ≠ SHT_RELA) :
    relocateSections g sectionHeaders fileSize l fs = some fs := by
  induction l with
  | nil => rfl
  | cons sh rest ih =>
    unfold relocateSections
    rw [if_neg (hno sh (List.mem_cons_self _ _))]
    exact ih (fun x hx => hno x (List.mem_cons_of_mem _ hx))

theorem readShdrs_bound {buf : List Byte} {off n : Nat} {hs : List Elf64_Shdr}
    (h : readShdrs buf off n = some hs) (hn : 0 < n) : off + n * sizeofShdr ≤ buf.length := by
  induction n generalizing off hs with
  | zero => omega
  | succ n ih =>
    unfold readShdrs at h
    cases h1 : readShdr buf off with
    | none => simp [h1] at h
    | some x =>
      cases h2 : readShdrs buf (off + sizeofShdr) n with
      | none => simp [h1, h2] at h
      | some xs =>
        have hx : off + sizeofShdr ≤ buf.length := by
          unfold readShdr slice at h1
          split at h1
          · assumption
          · simp at h1
        cases n with
        | zero => omega
        | succ k =>
          have := ih h2 (Nat.succ_pos k)
          rw [Nat.succ_mul]
          omega

theorem relocateSections_cons_other (g : Globals) (sectionHeaders : List Elf64_Shdr)
    (fileSize : Nat) (sh : Elf64_Shdr) (rest : List Elf64_Shdr) (fs : FileState)
    (h : sh.sh_type ≠ SHT_RELA) :
    relocateSections g sectionHeaders fileSize (sh :: rest) fs
      = relocateSections g sectionHeaders fileSize rest fs := by
  simp [relocateSections, h]

theorem relocateSections_cons_rela (g : Globals) (sectionHeaders : List Elf64_Shdr)
    (fileSize : Nat) (sh : Elf64_Shdr) (rest : List Elf64_Shdr) (fs : FileState)
    (fileData file1 : List Byte) (st : RelocState)
    (h : sh.sh_type = SHT_RELA)
    (h1 : slice fs.file 0 fileSize = some fileData)
    (h2 : applyRelocationEntries g sectionHeaders sh (List.range (sh.sh_size / sizeofRela))
      ⟨fileData, fs.diagnostics⟩ = some st)
    (h3 : overwrite fs.file 0 st.fileData = some file1) :
    relocateSections g sectionHeaders fileSize (sh :: rest) fs
      = relocateSections g sectionHeaders fileSize rest ⟨file1, st.diagnostics⟩ := by
  simp [relocateSections, h, h1, h2, h3]

theorem relocateSections_skip (g : Globals) (sectionHeaders : List Elf64_Shdr)
    (fileSize : Nat) (pre l : List Elf64_Shdr) (fs : FileState)
    (hno : ∀ sh ∈ pre, sh.sh_type ≠ SHT_RELA) :
    relocateSections g sectionHeaders fileSize (pre ++ l) fs
      = relocateSections g sectionHeaders fileSize l fs := by
  induction pre with
  | nil => rfl
  | cons sh rest ih =>
    rw [List.cons_append, relocateSections_cons_other g sectionHeaders fileSize sh _ fs
      (hno sh (List.mem_cons_self _ _))]
    exact ih (fun x hx => hno x (List.mem_cons_of_mem _ hx))

/-- C9 (as amended). `performRelocation(fileName)` works on the named input
file itself. Let the file hold an ELF header and a readable section header
table `hs`, and let `fileSize` be the position behind that table. If no
header has the type `SHT_RELA`, the routine returns with the file as it was.
Otherwise, for the first `SHT_RELA` header `sh`, the buffer `fileData` is the
first `fileSize` octets of the file, the entries of `sh` are applied to it,
and the relocated buffer is written back over the first `fileSize` octets of
that same file, which keeps its length; the routine goes on with the headers
after `sh` on the file so changed, and returns with it when none of them has
the type `SHT_RELA`. Whenever the routine returns, the file has its old
length. -/
theorem performRelocation_rewrites_input_file (g : Globals) (file image : List Byte)
    (hs : List Elf64_Shdr)
    (himage : slice file 0 sizeofEhdr = some image)
    (hhs : readShdrs file (decodeEhdr image).e_shoff (decodeEhdr image).e_shnum = some hs) :
    ((∀ x ∈ hs, x.sh_type ≠ SHT_RELA) → performRelocation g file = some ⟨file, []⟩) ∧
    (∀ (pre post : List Elf64_Shdr) (sh : Elf64_Shdr) (st : RelocState),
      hs = pre ++ sh :: post → (∀ x ∈ pre, x.sh_type ≠ SHT_RELA) →
      sh.sh_type = SHT_RELA →
      applyRelocationEntries g hs sh (List.range (sh.sh_size / sizeofRela))
        ⟨file.take ((decodeEhdr image).e_shoff + (decodeEhdr image).e_shnum * sizeofShdr),
          []⟩ = some st →
      (st.fileData ++ file.drop
          ((decodeEhdr image).e_shoff + (decodeEhdr image).e_shnum * sizeofShdr)).length
        = file.length ∧
      performRelocation g file =
        relocateSections g hs
          ((decodeEhdr image).e_shoff + (decodeEhdr image).e_shnum * sizeofShdr) post
          ⟨st.fileData ++ file.drop
            ((decodeEhdr image).e_shoff + (decodeEhdr image).e_shnum * sizeofShdr),
            st.diagnostics⟩ ∧
      ((∀ x ∈ post, x.sh_type ≠ SHT_RELA) →
        performRelocation g file =
          some ⟨st.fileData ++ file.drop
            ((decodeEhdr image).e_shoff + (decodeEhdr image).e_shnum * sizeofShdr),
            st.diagnostics⟩)) ∧
    (∀ fs : FileState, performRelocation g file = some fs → fs.file.length = file.length) := by
  have hperf : performRelocation g file = relocateSections g hs
      ((decodeEhdr image).e_shoff + (decodeEhdr image).e_shnum * sizeofShdr) hs ⟨file, []⟩ := by
    unfold performRelocation
    rw [himage]
    simp only
    rw [hhs]
  refine ⟨?_, ?_, ?_⟩
  · intro hno
    rw [hperf]
    exact relocateSections_no_rela g hs _ hs _ hno
  · intro pre post sh st hsplit hpre hsh hentries
    have hn : 0 < (decodeEhdr image).e_shnum := by
      cases hc : (decodeEhdr image).e_shnum with
      | zero =>
        rw [hc] at hhs
        simp only [readShdrs, Option.some.injEq] at hhs
        rw [← hhs] at hsplit
        simp at hsplit
      | succ k => exact Nat.succ_pos k
    have hsize := readShdrs_bound hhs hn
    have hlen := applyRelocationEntries_length _ hentries
    simp only [List.length_take] at hlen
    have hslice : slice file 0
        ((decodeEhdr image).e_shoff + (decodeEhdr image).e_shnum * sizeofShdr)
        = some (file.take
          ((decodeEhdr image).e_shoff + (decodeEhdr image).e_shnum * sizeofShdr)) := by
      unfold slice
      rw [if_pos (by omega)]
      simp
    have hover : overwrite file 0 st.fileData = some (st.fileData ++ file.drop
        ((decodeEhdr image).e_shoff + (decodeEhdr image).e_shnum * sizeofShdr)) := by
      rw [overwrite_isSome file 0 st.fileData (by omega)]
      simp only [List.take_zero, List.nil_append, Nat.zero_add]
      rw [hlen, Nat.min_eq_left hsize]
    have hstep : performRelocation g file =
        relocateSections g hs
          ((decodeEhdr image).e_shoff + (decodeEhdr image).e_shnum * sizeofShdr) post
          ⟨st.fileData ++ file.drop
            ((decodeEhdr image).e_shoff + (decodeEhdr image).e_shnum * sizeofShdr),
            st.diagnostics⟩ := by
      have hgen : ∀ l : List Elf64_Shdr, l = pre ++ sh :: post →
          relocateSections g hs
            ((decodeEhdr image).e_shoff + (decodeEhdr image).e_shnum * sizeofShdr) l
            ⟨file, []⟩ =
          relocateSections g hs
            ((decodeEhdr image).e_shoff + (decodeEhdr image).e_shnum * sizeofShdr) post
            ⟨st.fileData ++ file.drop
              ((decodeEhdr image).e_shoff + (decodeEhdr image).e_shnum * sizeofShdr),
              st.diagnostics⟩ := by
        intro l hl
        rw [hl, relocateSections_skip g hs _ pre (sh :: post) _ hpre]
        exact relocateSections_cons_rela g hs _ sh post ⟨file, []⟩ _ _ st hsh hslice
          hentries hover
      rw [hperf]
      exact hgen hs hsplit
    refine ⟨?_, hstep, ?_⟩
    · rw [List.length_append, List.length_drop, hlen]
      omega
    · intro hpost
      rw [hstep]
      exact relocateSections_no_rela g hs _ post _ hpost
  · intro fs hfs
    rw [hperf] at hfs
    exact relocateSections_length hs hfs

/-- Witness for `performRelocation_rewrites_input_file`: `bar.o`, whose
section header table ends the file and has one `SHT_RELA` header (header 3);
the routine returns with the file changed at position 2 and of the old
length. -/
theorem performRelocation_rewrites_input_file_witness :
    performRelocation barGlobals barObject = some ⟨barPatched, []⟩ ∧
    barPatched.length = barObject.length := by
  have h := (performRelocation_rewrites_input_file barGlobals barObject
    (ehdrImage 0xb8 5 4) (refHeaders nameBar) (by decide!) (by decide!)).2.1
    [⟨0, 0, 0, 0, 0, 0, 0, 0, 0, 0⟩, ⟨1, 1, 6, 0, 0x40, 16, 0, 0, 16, 0⟩,
      ⟨0, 2, 0, 0, 0x50, 48, 4, 1, 8, 24⟩]
    [⟨7, 3, 0, 0, 0x98, 30, 0, 0, 1, 0⟩]
    ⟨15, 4, 0x40, 0, 0x80, 24, 2, 1, 8, 24⟩ ⟨barPatched, []⟩
    (by decide) (by decide) (by decide) (by decide!)
  have hd : barPatched ++ barObject.drop
      ((decodeEhdr (ehdrImage 0xb8 5 4)).e_shoff
        + (decodeEhdr (ehdrImage 0xb8 5 4)).e_shnum * sizeofShdr) = barPatched := by
    decide!
  rw [hd] at h
  exact ⟨h.2.2 (by decide), h.1⟩

/-! ## `combineSections` -/

theorem get_assign (t : NameMap) (k name : List Byte) (v : Nat) :
    (t.assign k v).get name = if k = name then v else t.get name := by
  unfold NameMap.get
  rw [find_assign]
  by_cases h : k = name <;> simp [h]

theorem assignOffsets_cons (sectionNames : List Byte) (sh : Elf64_Shdr)
    (rest : List Elf64_Shdr) (acc : NameMap × List Elf64_Shdr) :
    assignOffsets sectionNames (sh :: rest) acc =
      if sh.sh_type ≠ SHT_NULL ∧ sh.sh_type ≠ SHT_NOBITS then
        assignOffsets sectionNames rest
          (acc.1.assign (cstr sectionNames sh.sh_name)
            (add64 (acc.1.get (cstr sectionNames sh.sh_name))
              (acc.1.get (cstr sectionNames sh.sh_name))),
            acc.2 ++ [withOffset sh (add64 (acc.1.get (cstr sectionNames sh.sh_name))
              (acc.1.get (cstr sectionNames sh.sh_name)))])
      else assignOffsets sectionNames rest (acc.1, acc.2 ++ [sh]) := rfl

theorem assignOffsets_append (sectionNames : List Byte) (a b : List Elf64_Shdr)
    (acc : NameMap × List Elf64_Shdr) :
    assignOffsets sectionNames (a ++ b) acc
      = assignOffsets sectionNames b (assignOffsets sectionNames a acc) := by
  induction a generalizing acc with
  | nil => rfl
  | cons sh rest ih =>
    rw [List.cons_append, assignOffsets_cons, assignOffsets_cons]
    split
    · exact ih _
    · exact ih _

theorem assignOffsets_accumulates (sectionNames : List Byte) (hs : List Elf64_Shdr)
    (m : NameMap) (pre : List Elf64_Shdr) :
    (assignOffsets sectionNames hs (m, pre)).2
      = pre ++ (assignOffsets sectionNames hs (m, [])).2 := by
  induction hs generalizing m pre with
  | nil => simp [assignOffsets]
  | cons sh rest ih =>
    rw [assignOffsets_cons, assignOffsets_cons]
    split
    · simp only [List.nil_append]
      rw [ih, ih _ [_], List.append_assoc]
    · simp only [List.nil_append]
      rw [ih, ih _ [_], List.append_assoc]

theorem assignOffsets_doubles (sectionNames : List Byte) (hs : List Elf64_Shdr)
    (m : NameMap) (k : Nat) (h : Elf64_Shdr) (hk : hs[k]? = some h)
    (h1 : h.sh_type ≠ SHT_NULL) (h2 : h.sh_type ≠ SHT_NOBITS) :
    ∃ h', (assignOffsets sectionNames hs (m, [])).2[k]? = some h' ∧
      h'.sh_offset =
        (2 ^ ((hs.take (k + 1)).countP (handledAs sectionNames (cstr sectionNames h.sh_name)))
          * m.get (cstr sectionNames h.sh_name)) % 2 ^ 64 := by
  induction hs generalizing m k with
  | nil => simp at hk
  | cons sh rest ih =>
    cases k with
    | zero =>
      simp only [List.getElem?_cons_zero, Option.some.injEq] at hk
      subst hk
      rw [assignOffsets_cons, if_pos ⟨h1, h2⟩]
      simp only [List.nil_append]
      rw [assignOffsets_accumulates]
      refine ⟨withOffset sh (add64 (m.get (cstr sectionNames sh.sh_name))
        (m.get (cstr sectionNames sh.sh_name))), by simp, ?_⟩
      simp [withOffset, handledAs, h1, h2, add64]
      omega
    | succ k =>
      simp only [List.getElem?_cons_succ] at hk
      rw [assignOffsets_cons]
      by_cases hsh : sh.sh_type ≠ SHT_NULL ∧ sh.sh_type ≠ SHT_NOBITS
      · rw [if_pos hsh]
        simp only [List.nil_append]
        rw [assignOffsets_accumulates]
        obtain ⟨h', hh, ho⟩ := ih (m.assign (cstr sectionNames sh.sh_name)
          (add64 (m.get (cstr sectionNames sh.sh_name)) (m.get (cstr sectionNames sh.sh_name))))
          k hk
        refine ⟨h', by simpa using hh, ?_⟩
        rw [ho, get_assign]
        by_cases hn : cstr sectionNames sh.sh_name = cstr sectionNames h.sh_name
        · have hc : handledAs sectionNames (cstr sectionNames h.sh_name) sh = true := by
            simp [handledAs, hsh.1, hsh.2, hn]
          rw [if_pos hn, List.take_succ_cons, List.countP_cons_of_pos _ _ hc, hn]
          simp only [add64]
          rw [pow_succ, Nat.mul_mod, Nat.mod_mod, ← Nat.mul_mod]
          congr 1
          ring
        · have hc : ¬ handledAs sectionNames (cstr sectionNames h.sh_name) sh = true := by
            simp [handledAs, hn]
          rw [if_neg hn, List.take_succ_cons, List.countP_cons_of_neg _ _ hc]
      · rw [if_neg hsh]
        simp only [List.nil_append]
        rw [assignOffsets_accumulates]
        obtain ⟨h', hh, ho⟩ := ih m k hk
        refine ⟨h', by simpa using hh, ?_⟩
        have hc : ¬ handledAs sectionNames (cstr sectionNames h.sh_name) sh = true := by
          simp only [handledAs, decide_eq_true_eq]
          intro hx
          exact hsh ⟨hx.1, hx.2.1⟩
        rw [ho, List.take_succ_cons, List.countP_cons_of_neg _ _ hc]


theorem combineSectionLoop_assignOffsets (sectionNames : List Byte)
    (hs : List Elf64_Shdr) (st : CombineState) :
    ((combineSectionLoop sectionNames hs st).sectionOffsets,
      (combineSectionLoop sectionNames hs st).assigned)
      = assignOffsets sectionNames hs (st.sectionOffsets, st.assigned) ∧
    (combineSectionLoop sectionNames hs st).processed = st.processed ++ hs := by
  induction hs generalizing st with
  | nil => exact ⟨rfl, (List.append_nil _).symm⟩
  | cons sh rest ih =>
    rw [assignOffsets_cons]
    unfold combineSectionLoop
    split
    · simp only
      refine ⟨(ih _).1, ?_⟩
      rw [(ih _).2]
      simp
    · refine ⟨(ih _).1, ?_⟩
      rw [(ih _).2]
      simp

theorem combinePass_assignOffsets (sectionNames indeterminate : List Byte)
    (contents : Option (List Byte)) (st : CombineState) :
    ((combinePass sectionNames indeterminate contents st).sectionOffsets,
      (combinePass sectionNames indeterminate contents st).assigned)
      = assignOffsets sectionNames (readLaterHeaders indeterminate contents st).1
          (st.sectionOffsets, st.assigned) ∧
    (combinePass sectionNames indeterminate contents st).processed
      = st.processed ++ (readLaterHeaders indeterminate contents st).1 := by
  unfold combinePass
  simp only
  exact combineSectionLoop_assignOffsets sectionNames _ _

theorem combineObjectFiles_assignOffsets (firstName : String) (sectionNames : List Byte)
    (files : String → Option (List Byte)) (indeterminate : Nat → List Byte)
    (objectFiles : List String) (i : Nat) (st : CombineState) :
    ∃ gone : List Elf64_Shdr,
      (combineObjectFiles firstName sectionNames files indeterminate objectFiles i
        st).processed = st.processed ++ gone ∧
      ((combineObjectFiles firstName sectionNames files indeterminate objectFiles i
          st).sectionOffsets,
        (combineObjectFiles firstName sectionNames files indeterminate objectFiles i
          st).assigned)
        = assignOffsets sectionNames gone (st.sectionOffsets, st.assigned) := by
  induction objectFiles generalizing i st with
  | nil => exact ⟨[], (List.append_nil _).symm, rfl⟩
  | cons f rest ih =>
    unfold combineObjectFiles
    split
    · exact ih (i + 1) st
    · obtain ⟨gone, h1, h2⟩ := ih (i + 1)
        (combinePass sectionNames (indeterminate i) (files f) st)
      have hp := combinePass_assignOffsets sectionNames (indeterminate i) (files f) st
      refine ⟨(readLaterHeaders (indeterminate i) (files f) st).1 ++ gone, ?_, ?_⟩
      · rw [h1, hp.2, List.append_assoc]
      · rw [h2, assignOffsets_append, ← hp.1]

/-- The section loop doubles: whenever `combineSections` returns, the `k`-th
header that the section loop has gone through, if it is handled under the
name `N` and is the `j`-th such header, has been given
`(2^j * o) mod 2^64`, where `o` is what the first module recorded under `N`
(0 when it recorded nothing). -/
theorem section_loop_doubles (objectFiles : List String)
    (files : String → Option (List Byte)) (indeterminate : Nat → List Byte)
    (firstName : String) (first : List Byte) (m : FirstModule) (r : CombineState)
    (hname : objectFiles.head? = some firstName)
    (hfile : files firstName = some first)
    (hfirst : readFirstModule first = some m)
    (hr : combineSections objectFiles files indeterminate = some r)
    (k : Nat) (h : Elf64_Shdr) (hk : r.processed[k]? = some h)
    (h1 : h.sh_type ≠ SHT_NULL) (h2 : h.sh_type ≠ SHT_NOBITS) :
    ∃ h', r.assigned[k]? = some h' ∧
      h'.sh_offset =
        (2 ^ ((r.processed.take (k + 1)).countP
            (handledAs m.sectionNames (cstr m.sectionNames h.sh_name)))
          * (recordSectionOffsets m.sectionNames m.sectionHeaders []).get
              (cstr m.sectionNames h.sh_name)) % 2 ^ 64 := by
  cases objectFiles with
  | nil => simp at hname
  | cons f rest =>
    simp only [List.head?_cons, Option.some.injEq] at hname
    subst hname
    unfold combineSections at hr
    simp only [hfile, hfirst, Option.some.injEq] at hr
    obtain ⟨gone, hg1, hg2⟩ := combineObjectFiles_assignOffsets f m.sectionNames files
      indeterminate (f :: rest) 0 (combineStart first m)
    rw [hr] at hg1 hg2
    simp only [combineStart, List.nil_append] at hg1 hg2
    rw [hg1] at hk ⊢
    have hsnd := congrArg Prod.snd hg2
    simp only at hsnd
    rw [hsnd]
    exact assignOffsets_doubles m.sectionNames gone _ k h hk h1 h2

theorem readInto_nil (v : List Elf64_Shdr) : readInto [] v = v := by
  cases v <;> rfl

theorem readLaterHeaders_open (indeterminate : List Byte) (contents : Option (List Byte))
    (st : CombineState) (c0 : List Byte) (hopen : st.inputFile.file = some c0) :
    (readLaterHeaders indeterminate contents st).1
      = resize st.sectionHeaders (decodeEhdr indeterminate).e_shnum ∧
    readLaterHeaders indeterminate contents st = readLaterHeaders indeterminate none st := by
  have h1 : ∀ c : Option (List Byte), st.inputFile.openOn c
      = ⟨st.inputFile.file, st.inputFile.pos, true, st.inputFile.eofbit⟩ := by
    intro c
    unfold InputStream.openOn
    rw [hopen]
  constructor
  · unfold readLaterHeaders
    simp only [h1, InputStream.read, InputStream.seekg, true_or, if_true, overlay,
      List.nil_append, List.length_nil, List.drop_zero, readInto_nil]
  · unfold readLaterHeaders
    simp only [h1]

theorem combinePass_open (sectionNames indeterminate : List Byte)
    (contents : Option (List Byte)) (st : CombineState) (c0 : List Byte)
    (hopen : st.inputFile.file = some c0) :
    combinePass sectionNames indeterminate contents st
      = combinePass sectionNames indeterminate none st := by
  unfold combinePass
  rw [(readLaterHeaders_open indeterminate contents st c0 hopen).2]

theorem assignOffsets_zeros (sectionNames : List Byte) (k : Nat)
    (acc : NameMap × List Elf64_Shdr) :
    assignOffsets sectionNames (List.replicate k zeroShdr) acc
      = (acc.1, acc.2 ++ List.replicate k zeroShdr) := by
  induction k generalizing acc with
  | zero => simp [assignOffsets]
  | succ k ih =>
    rw [List.replicate_succ, assignOffsets_cons, if_neg (by simp [zeroShdr, SHT_NULL]), ih]
    simp [List.replicate_succ]

theorem assignOffsets_take (sectionNames : List Byte) (l : List Elf64_Shdr) (n : Nat)
    (m : NameMap) :
    (assignOffsets sectionNames (l.take n) (m, [])).2
      = ((assignOffsets sectionNames l (m, [])).2).take n := by
  induction l generalizing n m with
  | nil => simp [assignOffsets]
  | cons sh rest ih =>
    cases n with
    | zero => simp [assignOffsets]
    | succ n =>
      rw [List.take_succ_cons, assignOffsets_cons, assignOffsets_cons]
      split
      · simp only [List.nil_append]
        rw [assignOffsets_accumulates, assignOffsets_accumulates _ _ _ [_], ih]
        simp
      · simp only [List.nil_append]
        rw [assignOffsets_accumulates, assignOffsets_accumulates _ _ _ [_], ih]
        simp

theorem assignOffsets_resize (sectionNames : List Byte) (v : List Elf64_Shdr) (n : Nat)
    (m : NameMap) :
    (assignOffsets sectionNames (resize v n) (m, [])).2
      = ((assignOffsets sectionNames v (m, [])).2
          ++ List.replicate (n - v.length) zeroShdr).take n := by
  unfold resize
  rw [assignOffsets_take, assignOffsets_append, assignOffsets_zeros]


theorem combineSections_pair (contents : List Byte) (indeterminate : Nat → List Byte) :
    combineSections ["add.o", "main.o"] (pairFiles contents) indeterminate
      = some (combinePass (defNames nameAdd) (indeterminate 1) none
          (combineStart addObject addFirstModule)) := by
  have hfirst : readFirstModule addObject = some addFirstModule := by decide!
  have hadd : pairFiles contents "add.o" = some addObject := by simp [pairFiles]
  have hmain : pairFiles contents "main.o" = some contents := by simp [pairFiles]
  have hne : ¬ ("main.o" = "add.o") := by decide
  unfold combineSections
  simp only [hadd, hfirst]
  unfold combineObjectFiles
  rw [if_pos rfl]
  unfold combineObjectFiles
  rw [if_neg hne, hmain]
  unfold combineObjectFiles
  rw [combinePass_open _ _ _ _ addObject rfl]
  rfl

theorem pair_pass_records (indeterminate : List Byte) :
    (combinePass (defNames nameAdd) indeterminate none
        (combineStart addObject addFirstModule)).processed
      = resize (defHeaders nameAdd) (decodeEhdr indeterminate).e_shnum ∧
    (combinePass (defNames nameAdd) indeterminate none
        (combineStart addObject addFirstModule)).assigned
      = (addStaleAssigned ++ List.replicate ((decodeEhdr indeterminate).e_shnum - 4)
          zeroShdr).take (decodeEhdr indeterminate).e_shnum := by
  have hp := combinePass_assignOffsets (defNames nameAdd) indeterminate none
    (combineStart addObject addFirstModule)
  have hv := (readLaterHeaders_open indeterminate none
    (combineStart addObject addFirstModule) addObject rfl).1
  have hvec : (combineStart addObject addFirstModule).sectionHeaders = defHeaders nameAdd := rfl
  rw [hv, hvec] at hp
  have hstale : (assignOffsets (defNames nameAdd) (defHeaders nameAdd)
      ((combineStart addObject addFirstModule).sectionOffsets, [])).2 = addStaleAssigned := by
    decide!
  refine ⟨?_, ?_⟩
  · rw [hp.2]
    rfl
  · have h2 := congrArg Prod.snd hp.1
    simp only at h2
    rw [h2]
    have hnil : (combineStart addObject addFirstModule).assigned = [] := rfl
    rw [hnil, assignOffsets_resize, hstale]
    rfl


/-- C7 (the code at the failing input). `add.o` has `.text` at offset `0x40`
with size 16, so `main.o`'s `.text` placed right behind it would get the
offset `0x50`. On `[add.o, main.o]`, whatever the indeterminate `elfHeader` of
the pass for `main.o` holds: `combineSections` returns; its result is the
same for any contents of `main.o`, which is never read because the stream is
still open on `add.o`; no header stands with the offset `0x50`; and the header
at position 1, the `.text` header left in the vector from `add.o`, is given
`0x80`, twice the offset recorded for `.text`, when the indeterminate `e_shnum`
is at least 2 (no header named `.text` is gone through otherwise). -/
theorem second_text_offset_ignores_first_size :
    (sectionHeadersOf addObject)[1]? = some ⟨1, 1, 6, 0, 0x40, 16, 0, 0, 16, 0⟩ ∧
    (sectionHeadersOf mainObject)[1]? = some ⟨1, 1, 6, 0, 0x40, 16, 0, 0, 16, 0⟩ ∧
    cstr (defNames nameAdd) 1 = [46, 116, 101, 120, 116] ∧
    0x40 + 16 = 0x50 ∧
    ∀ indeterminate : Nat → List Byte,
      ∃ r, combineSections ["add.o", "main.o"] (pairFiles mainObject) indeterminate
          = some r ∧
        (∀ contents : List Byte,
          combineSections ["add.o", "main.o"] (pairFiles contents) indeterminate = some r) ∧
        (∀ h ∈ r.assigned, h.sh_offset ≠ 0x50) ∧
        assignedOffset (some r) 1
          = if 2 ≤ (decodeEhdr (indeterminate 1)).e_shnum then some 0x80 else none := by
  refine ⟨by decide!, by decide!, by decide, by decide, ?_⟩
  intro indeterminate
  refine ⟨_, combineSections_pair mainObject indeterminate,
    fun contents => combineSections_pair contents indeterminate, ?_, ?_⟩
  · intro h hh
    rw [(pair_pass_records (indeterminate 1)).2] at hh
    rcases List.mem_append.mp (List.mem_of_mem_take hh) with hin | hin
    · have hall : ∀ x ∈ addStaleAssigned, x.sh_offset ≠ 0x50 := by decide
      exact hall h hin
    · rw [List.eq_of_mem_replicate hin]
      decide
  · show ((combinePass (defNames nameAdd) (indeterminate 1) none
        (combineStart addObject addFirstModule)).assigned[1]?).map
        (fun h => h.sh_offset) = _
    rw [(pair_pass_records (indeterminate 1)).2, List.getElem?_take]
    by_cases hn : 2 ≤ (decodeEhdr (indeterminate 1)).e_shnum
    · rw [if_pos hn, if_pos (by omega), List.getElem?_append_left (by decide)]
      rfl
    · rw [if_neg hn, if_neg (by omega)]
      rfl

/-- C8 (the code at the failing input). `add.o` alone, which has no undefined
global symbol and no relocation: its `.text` (type `SHT_PROGBITS`, offset
`0x40`, size 16) starts with `0xc3, 0x90`, and the output file of
`combineSections` holds sixteen zero octets there; only the ELF header, the
section name table and the section header table have been written. -/
theorem first_module_sections_are_not_written :
    (sectionHeadersOf addObject)[1]? = some ⟨1, 1, 6, 0, 0x40, 16, 0, 0, 16, 0⟩ ∧
    slice addObject 0x40 16 = some [0xc3, 0x90, 0x90, 0x90, 0x90, 0x90, 0x90, 0x90,
      0x90, 0x90, 0x90, 0x90, 0x90, 0x90, 0x90, 0x90] ∧
    ∀ indeterminate : Nat → List Byte,
      outputBytes (combineSections ["add.o"] (pairFiles []) indeterminate) 0x40 16
        = some [0, 0, 0, 0, 0, 0, 0, 0, 0, 0, 0, 0, 0, 0, 0, 0] ∧
      outputBytes (combineSections ["add.o"] (pairFiles []) indeterminate) 0 0x40
        = slice addObject 0 0x40 ∧
      outputBytes (combineSections ["add.o"] (pairFiles []) indeterminate) 0x80 0x118
        = slice addObject 0x80 0x118 := by
  refine ⟨by decide!, by decide!, ?_⟩
  intro indeterminate
  have hfirst : readFirstModule addObject = some addFirstModule := by decide!
  have hadd : pairFiles [] "add.o" = some addObject := by simp [pairFiles]
  have hrun : combineSections ["add.o"] (pairFiles []) indeterminate
      = some (combineStart addObject addFirstModule) := by
    unfold combineSections
    simp only [hadd, hfirst]
    unfold combineObjectFiles
    rw [if_pos rfl]
    unfold combineObjectFiles
    rfl
  rw [hrun]
  refine ⟨by decide!, by decide!, by decide!⟩

end Linker
